import Mathlib

/-!
Shallow embedding of `src/subgradient.c` (subgradient methods for
set-covering problems) over exact rational arithmetic.

Conventions used throughout:
* C `double` values are modelled as `ℚ`; the literal tolerances
  `pow(10,-14)` and `ZERO_TOL = pow(10,-12)` become the exact rationals
  `tol14` and `ztol`.
* the mutable arrays of the C code become `List` values; an in-place
  update `a[i] = v` becomes `List.set`, a read `a[i]` becomes `List.getD`.
* the line-search tolerance `eta = eta_not / pow(itr, 1.1)` of the SPS
  driver is irrational for `itr ≥ 2` (and `+∞` at `itr = 0`), so the
  embedded driver takes the per-iteration tolerance as an explicit
  sequence `eta : ℕ → ℚ`; theorems about concrete runs quantify over
  every non-negative tolerance sequence and therefore cover the value
  the C code computes.  The `itr = 0` division by zero itself is studied
  separately on an extended-rational model (`XQ` below).
* the two `double` buffers `dual1`/`dual2` that the drivers ping-pong
  between are modelled by their contents (`curC` = contents of the
  buffer the name `curr_dual` points at, `bstC` = contents of the buffer
  `best_dual` points at) plus the flag `oldAtBest` telling whether
  `old_dual` currently aliases the best buffer (which happens exactly
  after an improving swap).  The uninitialised contents of `dual2` at
  allocation time are an explicit `junk` parameter.
-/

set_option maxRecDepth 8000000

namespace SCPModel

/-- Tolerance `pow(10,-14)` used by both subgradient computations. -/
def tol14 : ℚ := 1 / 10 ^ 14

/-- `ZERO_TOL = pow(10,-12)` (subgradient.c line 33). -/
def ztol : ℚ := 1 / 10 ^ 12

/-- Sparse SCP instance (the static data built by `load_scp_instance`):
costs plus the row-wise and column-wise incidence structures. -/
structure SCP where
  numRow : ℕ
  numCol : ℕ
  cost : List ℤ
  colsOfRow : List (List ℕ)
  rowsOfCol : List (List ℕ)
  deriving DecidableEq, Repr

namespace SCP

/-- Incident columns of a row (`row_wise_a` segment of row `r`). -/
def colsRow (P : SCP) (r : ℕ) : List ℕ := P.colsOfRow.getD r []

/-- Incident rows of a column (`col_wise_a` segment of column `c`). -/
def rowsCol (P : SCP) (c : ℕ) : List ℕ := P.rowsOfCol.getD c []

/-- `col_sizes[c]`, cached by the loader as the length of column `c`. -/
def colSize (P : SCP) (c : ℕ) : ℕ := (P.rowsCol c).length

/-- Well-formedness of an instance as guaranteed by the loader: list
lengths, index bounds, and the multiplicity duality between the two
incidence directions (both are built from the same token stream). -/
structure WF (P : SCP) : Prop where
  costLen : P.cost.length = P.numCol
  rowLen : P.colsOfRow.length = P.numRow
  colLen : P.rowsOfCol.length = P.numCol
  rowBound : ∀ r < P.numRow, ∀ c ∈ P.colsRow r, c < P.numCol
  colBound : ∀ c < P.numCol, ∀ r ∈ P.rowsCol c, r < P.numRow
  duality : ∀ r < P.numRow, ∀ c < P.numCol,
    (P.colsRow r).count c = (P.rowsCol c).count r

instance (P : SCP) : Decidable P.WF := by
  have : P.WF ↔ (P.cost.length = P.numCol ∧ P.colsOfRow.length = P.numRow ∧
      P.rowsOfCol.length = P.numCol ∧
      (∀ r < P.numRow, ∀ c ∈ P.colsRow r, c < P.numCol) ∧
      (∀ c < P.numCol, ∀ r ∈ P.rowsCol c, r < P.numRow) ∧
      (∀ r < P.numRow, ∀ c < P.numCol,
        (P.colsRow r).count c = (P.rowsCol c).count r)) :=
    ⟨fun h => ⟨h.1, h.2, h.3, h.4, h.5, h.6⟩,
     fun h => ⟨h.1, h.2.1, h.2.2.1, h.2.2.2.1, h.2.2.2.2.1, h.2.2.2.2.2⟩⟩
  exact decidable_of_iff _ this.symm

end SCP

/-- Reduced costs recomputed from scratch from a dual vector:
`reducedCost[c] = cost[c] − Σ dual[r] over r in rowsCol c`
(the loop of `get_reduced_costs`, also lines 207–214 of
`init_dual_vector`). -/
def reducedFromScratch (P : SCP) (dual : List ℚ) : List ℚ :=
  (List.range P.numCol).map fun c =>
    (P.cost.getD c 0 : ℚ) - ((P.rowsCol c).map fun r => dual.getD r 0).sum

/-- Sum of the negative reduced costs, as accumulated by the drivers
(`if (reduced_costs[i] < 0) curr_obj += reduced_costs[i]`). -/
def negPart (rc : List ℚ) : ℚ := (rc.map fun x => if x < 0 then x else 0).sum

/-- The Lagrangian objective as the specification words it:
`Σ dual[row] + Σ min(0, reducedCost[col])`. -/
def objectiveSpec (dual rc : List ℚ) : ℚ :=
  dual.sum + (rc.map fun x => min 0 x).sum

/-- The cost share `cost[c] / col_sizes[c]` of a column (line 197). -/
def ratio (P : SCP) (c : ℕ) : ℚ :=
  (P.cost.getD c 0 : ℚ) / (P.colSize c : ℚ)

/-- `init_dual_vector` (lines 185–217): per row, the running minimum
starts from the raw cost of the row's first incident column and then
takes `cost[c]/col_sizes[c]` over all incident columns; afterwards the
reduced costs are computed and the sum of the duals is returned. -/
def init_dual_vector (P : SCP) : List ℚ × List ℚ × ℚ :=
  let dual := (List.range P.numRow).map fun r =>
    let cols := P.colsRow r
    cols.foldl (fun m c => if ratio P c < m then ratio P c else m)
      (P.cost.getD (cols.headD 0) 0 : ℚ)
  let rc := reducedFromScratch P dual
  (dual, rc, dual.sum)

/-- Decrement the subgradient entry of every row occurrence in `rows`
(`subg[col_wise_a[j]]--`). -/
def decRows : List ℤ → List ℕ → List ℤ
  | s, [] => s
  | s, r :: rest => decRows (s.set r (s.getD r 0 - 1)) rest

/-- Column loop of `compute_subg_vector_sps` (lines 230–236): for every
column (processed in index order) whose reduced cost is below `tol14`,
decrement the entries of its incident rows. -/
def subgColsLoop (P : SCP) (rc : List ℚ) : List ℕ → List ℤ → List ℤ
  | [], s => s
  | c :: rest, s =>
    subgColsLoop P rc rest
      (if rc.getD c 0 < tol14 then decRows s (P.rowsCol c) else s)

/-- `compute_subg_vector_sps` (lines 223–244): all-ones vector, then the
column loop; the Bool is `true` iff the function returns the `-1`
"optimal" sentinel, i.e. iff the resulting vector is identically zero. -/
def compute_subg_vector_sps (P : SCP) (rc : List ℚ) : List ℤ × Bool :=
  let s := subgColsLoop P rc (List.range P.numCol) (List.replicate P.numRow 1)
  (s, s.all fun x => x == 0)

/-- Second loop of `compute_subg_vector_basic` (lines 473–485) over the
pairs `(subg[i], dual[i])`: tracks `is_opt`, clamps a negative entry of a
row whose dual is below `tol14` to zero, and accumulates the squared
norm of the entries that remain.  Returns (clamped vector, is_opt, norm). -/
def clampLoop : List (ℤ × ℚ) → List ℤ × Bool × ℤ
  | [] => ([], true, 0)
  | (si, di) :: rest =>
    let (l, opt, nrm) := clampLoop rest
    if si = 0 then (si :: l, opt, nrm)
    else if si < 0 ∧ di < tol14 then ((0 : ℤ) :: l, false, nrm)
    else (si :: l, false, nrm + si * si)

/-- `compute_subg_vector_basic` (lines 456–493): the same vector as the
sps variant, then the clamping pass; the second component is the C return
value (`-1` sentinel when `is_opt`, otherwise the squared norm with `0`
replaced by `1`). -/
def compute_subg_vector_basic (P : SCP) (rc dual : List ℚ) : List ℤ × ℤ :=
  let s := (compute_subg_vector_sps P rc).1
  let t := clampLoop (s.zip dual)
  (t.1, if t.2.1 then -1 else if t.2.2 = 0 then 1 else t.2.2)

/-- Propagate a dual change: subtract `delta` from the reduced cost of
every incident column occurrence (`reduced_costs[row_wise_a[j]] -= value`). -/
def propagate : List ℚ → List ℕ → ℚ → List ℚ
  | rc, [], _ => rc
  | rc, c :: rest, delta => propagate (rc.set c (rc.getD c 0 - delta)) rest delta

/-- Evaluation-forcing guard: a self-comparison whose reduction walks the
whole value.  Semantically it is always `true` (see `forceB_eq_true`), so
the `if forceB st then k st else k st` pattern used by the driver loops is
just `k st`; operationally it keeps kernel reduction of long concrete runs
shallow. -/
def forceB {α : Type _} [DecidableEq α] (a : α) : Bool := a == a

theorem forceB_eq_true {α : Type _} [DecidableEq α] (a : α) : forceB a = true := by
  simp [forceB]

/-! ## The Basic (Beasley) driver, lines 500–595 -/

/-- State of `basic_subgradient` between iterations.  `curC`/`bstC` are the
contents of the buffers the names `curr_dual`/`best_dual` point at;
`oldAtBest` records that `old_dual` aliases the best buffer (true exactly
after an improving swap).  `normNeg` is set when
`compute_subg_vector_basic` returned the `-1` sentinel (the `break`). -/
structure BasicSt where
  curC : List ℚ
  bstC : List ℚ
  oldAtBest : Bool
  rc : List ℚ
  currObj : ℚ
  bestObj : ℚ
  lam : ℚ
  counter : ℕ
  normNeg : Bool
  deriving DecidableEq, Repr

/-- The dual vector `old_dual` points at. -/
def BasicSt.oldDual (st : BasicSt) : List ℚ :=
  if st.oldAtBest then st.bstC else st.curC

/-- Per-row update loop of the basic driver (lines 538–553) over the pairs
`(subg[i], old_dual[i])`, threading the reduced costs: the tentative value
`step_size * subg[i]` is added, a negative result is projected to zero with
the delta corrected accordingly, and deltas beyond `ztol` are propagated.
Returns (new dual, sum of new dual entries, reduced costs). -/
def basicRowLoop (P : SCP) (stepQ : ℚ) : List (ℤ × ℚ) → ℕ → List ℚ →
    List ℚ × ℚ × List ℚ
  | [], _, rc => ([], 0, rc)
  | (si, di) :: rest, r, rc =>
    let value : ℚ := stepQ * (si : ℚ)
    let nd0 := di + value
    let value2 := if nd0 < 0 then value - nd0 else value
    let nd := if nd0 < 0 then 0 else nd0
    let rc2 := if value2 < -ztol ∨ ztol < value2 then
        propagate rc (P.colsRow r) value2 else rc
    let t := basicRowLoop P stepQ rest (r + 1) rc2
    (nd :: t.1, nd + t.2.1, t.2.2)

/-- One iteration of the `basic_subgradient` for-loop (lines 527–579).
When the subgradient computation returns the sentinel, the iteration is a
`break`: only `normNeg` is set. -/
def basicIter (P : SCP) (ub : ℤ) (st : BasicSt) : BasicSt :=
  let old := st.oldDual
  let sg := compute_subg_vector_basic P st.rc old
  if sg.2 < 0 then { st with normNeg := true }
  else
    let stepQ := st.lam * ((21 / 20 : ℚ) * (ub : ℚ) - st.currObj) / (sg.2 : ℚ)
    let t := basicRowLoop P stepQ (sg.1.zip old) 0 st.rc
    let obj := t.2.1 + negPart t.2.2
    if st.bestObj < obj then
      ⟨st.bstC, t.1, true, t.2.2, obj, obj, st.lam, 0, false⟩
    else if st.counter + 1 > 10 then
      ⟨t.1, st.bstC, false, t.2.2, obj, st.bestObj, st.lam / 2, 0, false⟩
    else
      ⟨t.1, st.bstC, false, t.2.2, obj, st.bestObj, st.lam, st.counter + 1, false⟩

/-- Fuel-indexed iteration of `basicIter`; the sentinel state is fixed
(i.e. the C `break`). -/
def basicGo (P : SCP) (ub : ℤ) : ℕ → BasicSt → BasicSt
  | 0, st => st
  | f + 1, st =>
    if st.normNeg then st
    else
      let st2 := basicIter P ub st
      if forceB st2 then basicGo P ub f st2 else basicGo P ub f st2

/-- `basic_subgradient` (lines 500–595): initialise, iterate up to
`maxItr`, and at cleanup copy the dual the `best_dual` pointer designates
(which is `curr_dual` when the run ended by optimality) into the result
store.  `junk` models the uninitialised contents of the `dual2` buffer.
Returns (returned objective, stored dual copy). -/
def basic_subgradient (P : SCP) (ub : ℤ) (maxItr : ℕ) (junk : List ℚ) :
    ℚ × List ℚ :=
  let t := init_dual_vector P
  let st0 : BasicSt := ⟨t.1, junk, false, t.2.1, t.2.2, t.2.2, 2, 0, false⟩
  let stF := basicGo P ub maxItr st0
  if stF.normNeg then (stF.currObj, stF.curC) else (stF.bestObj, stF.bstC)

/-- Boolean check that the incrementally maintained reduced costs equal
the from-scratch recomputation for the given dual vector. -/
def rcConsistentB (P : SCP) (dual rc : List ℚ) : Bool :=
  rc == reducedFromScratch P dual

/-- Run the basic driver while checking, after every iteration that
evaluates the objective (i.e. every non-`break` iteration), that the
incrementally maintained reduced costs still equal the from-scratch
reduced costs of the dual vector just produced.  Returns the conjunction
of all checks. -/
def basicGoCheck (P : SCP) (ub : ℤ) : ℕ → BasicSt → Bool → Bool
  | 0, _, ok => ok
  | f + 1, st, ok =>
    if st.normNeg then ok
    else
      let st2 := basicIter P ub st
      let ok2 := ok && (st2.normNeg || rcConsistentB P st2.oldDual st2.rc)
      if forceB st2 then basicGoCheck P ub f st2 ok2
      else basicGoCheck P ub f st2 ok2

/-- The consistency check over the full run of `basic_subgradient`
starting from its initial state. -/
def basicRunConsistent (P : SCP) (ub : ℤ) (maxItr : ℕ) (junk : List ℚ) :
    Bool :=
  let t := init_dual_vector P
  basicGoCheck P ub maxItr ⟨t.1, junk, false, t.2.1, t.2.2, t.2.2, 2, 0, false⟩
    true

/-! ## The spectral projected subgradient (SPS) driver, lines 250–449 -/

/-- Tentative momentum step of the SPS driver (lines 310–335) over the
triples `((old_dual[i], momentum[i]), old_subg[i])`, threading the reduced
costs.  Produces (new momentum, new dual, reduced costs, recorded `dd`
pairs (row, delta), `product`, `sub_obj`). -/
def tentLoop (P : SCP) (alpha : ℚ) : List ((ℚ × ℚ) × ℤ) → ℕ → List ℚ →
    List ℚ × List ℚ × List ℚ × List (ℕ × ℚ) × ℚ × ℚ
  | [], _, rc => ([], [], rc, [], 0, 0)
  | ((di, mi), gi) :: rest, r, rc =>
    let m2 := alpha * (gi : ℚ) + (7 / 10) * mi
    let v0 := di + m2
    let v1 := if v0 < 0 then 0 else v0
    let dv := v1 - di
    if dv < -ztol ∨ ztol < dv then
      let rc2 := propagate rc (P.colsRow r) dv
      let t := tentLoop P alpha rest (r + 1) rc2
      (m2 :: t.1, (di + dv) :: t.2.1, t.2.2.1, (r, dv) :: t.2.2.2.1,
        dv * m2 + t.2.2.2.2.1, (di + dv) + t.2.2.2.2.2)
    else
      let t := tentLoop P alpha rest (r + 1) rc
      (m2 :: t.1, di :: t.2.1, t.2.2.1, t.2.2.2.1, t.2.2.2.2.1,
        di + t.2.2.2.2.2)

/-- One pass of the rollback loop inside the non-monotone line search
(lines 352–363): for each recorded `(row, dd[row])`, subtract `tau*dd[row]`
from the dual (and `sub_obj`) and propagate, unless the adjustment is
within `ztol`.  State is (current dual, sub_obj, reduced costs). -/
def rollbackPass (P : SCP) (tau : ℚ) : List (ℕ × ℚ) → List ℚ × ℚ × List ℚ →
    List ℚ × ℚ × List ℚ
  | [], acc => acc
  | (r, dv) :: rest, acc =>
    let v := tau * dv
    if v < -ztol ∨ ztol < v then
      rollbackPass P tau rest
        (acc.1.set r (acc.1.getD r 0 - v), acc.2.1 - v,
          propagate acc.2.2 (P.colsRow r) (-v))
    else rollbackPass P tau rest acc

/-- The non-monotone line-search while-loop (lines 350–372), fuel-indexed:
while `curr_obj < accept`, halve `tau`, roll the changed rows back by the
new `tau`, recompute the objective and lower `accept` by
`gamma * tau * product`.  State and result are
(tau, curr_obj, current dual, sub_obj, reduced costs). -/
def lineSearch (P : SCP) (dd : List (ℕ × ℚ)) (p : ℚ) :
    ℕ → ℚ × ℚ × List ℚ × ℚ × List ℚ → ℚ → ℚ × ℚ × List ℚ × ℚ × List ℚ
  | 0, st, _ => st
  | f + 1, st, accept =>
    if st.2.1 < accept then
      let tau2 := st.1 / 2
      let t := rollbackPass P tau2 dd (st.2.2.1, st.2.2.2.1, st.2.2.2.2)
      let obj2 := t.2.1 + negPart t.2.2
      lineSearch P dd p f (tau2, obj2, t.1, t.2.1, t.2.2)
        (accept - (1 / 10) * tau2 * p)
    else st

/-- Line-search fuel used by the embedded driver; any value large enough
for the run at hand (the theorems below never exhaust it). -/
def lsFuel : ℕ := 128

/-- State of `spectral_projected_subgradient` between iterations; buffer
conventions as in `BasicSt`.  `buf`/`worst`/`worstIdx` are the sliding
window `past_objs`/`worst_obj`/`worst_obj_idx` (unwritten slots are
`none`); `stuck` records whether a window rescan ever read an unwritten
slot. -/
structure SpsSt where
  curC : List ℚ
  bstC : List ℚ
  oldAtBest : Bool
  rc : List ℚ
  momentum : List ℚ
  prevSubg : List ℤ
  alpha : ℚ
  currObj : ℚ
  bestObj : ℚ
  buf : List (Option ℚ)
  worst : ℚ
  worstIdx : ℕ
  itr : ℕ
  isOpt : Bool
  stuck : Bool
  deriving DecidableEq, Repr

/-- The dual vector `old_dual` points at. -/
def SpsSt.oldDual (st : SpsSt) : List ℚ :=
  if st.oldAtBest then st.bstC else st.curC

/-- Rescan of the ring buffer (lines 415–421), scanning `j = M-1 … 0`:
any slot strictly below the running worst becomes the new worst.  Reading
an unwritten (`none`) slot sets the stuck flag; its value takes no part in
the comparison (the C code would compare uninitialised memory there —
the theorems show this case is never reached). -/
def rescanLoop (buf : List (Option ℚ)) : List ℕ → ℚ × ℕ × Bool → ℚ × ℕ × Bool
  | [], acc => acc
  | j :: rest, (w, wi, stk) =>
    match buf.getD j none with
    | none => rescanLoop buf rest (w, wi, true)
    | some v =>
      if v < w then rescanLoop buf rest (v, j, stk)
      else rescanLoop buf rest (w, wi, stk)

/-- Sliding-window update of `worst_obj` (lines 408–426): write the new
objective at slot `(itr+1) % 10`; if that slot held the previous minimum,
either keep the new value (when it is no larger) or rescan the whole
buffer; otherwise compare directly.  Returns (buffer, worst, worstIdx,
stuck flag of the rescan). -/
def windowStep (buf : List (Option ℚ)) (worst : ℚ) (wIdx : ℕ) (itr : ℕ)
    (v : ℚ) : List (Option ℚ) × ℚ × ℕ × Bool :=
  let i := (itr + 1) % 10
  let buf2 := buf.set i (some v)
  if i = wIdx then
    if v ≤ worst then (buf2, v, wIdx, false)
    else
      let t := rescanLoop buf2 [9, 8, 7, 6, 5, 4, 3, 2, 1, 0] (v, wIdx, false)
      (buf2, t.1, t.2.1, t.2.2)
  else if v < worst then (buf2, v, i, false)
  else (buf2, worst, wIdx, false)

/-- Tentative step of one SPS iteration (lines 310–335) on the state. -/
def spsTent (P : SCP) (st : SpsSt) :
    List ℚ × List ℚ × List ℚ × List (ℕ × ℚ) × ℚ × ℚ :=
  tentLoop P st.alpha ((st.oldDual.zip st.momentum).zip st.prevSubg) 0 st.rc

/-- Tentative objective (lines 337–343). -/
def spsTentObj (P : SCP) (st : SpsSt) : ℚ :=
  (spsTent P st).2.2.2.2.2 + negPart (spsTent P st).2.2.1

/-- `product /= alpha` (line 346). -/
def spsProd (P : SCP) (st : SpsSt) : ℚ := (spsTent P st).2.2.2.2.1 / st.alpha

/-- The eta-free part of the initial acceptance threshold of line 349
(with `tau = 1`); the full threshold is this minus the iteration's eta. -/
def spsAccept (P : SCP) (st : SpsSt) : ℚ :=
  st.worst + (1 / 10) * 1 * spsProd P st

/-- Post-line-search part of one SPS iteration (lines 374–426), taking
the line-search result (tau, obj, dual, sub_obj, reduced costs). -/
def spsPost (P : SCP) (st : SpsSt) (ls : ℚ × ℚ × List ℚ × ℚ × List ℚ) :
    SpsSt :=
  let t := spsTent P st
  let moms := t.1
  let dd := t.2.2.2.1
  let tau := ls.1
  let obj2 := ls.2.1
  let cur2 := ls.2.2.1
  let rc3 := ls.2.2.2.2
  let imp := st.bestObj < obj2
  let curN := if imp then st.bstC else cur2
  let bstN := if imp then cur2 else st.bstC
  let bestObj2 := if imp then obj2 else st.bestObj
  let sg := compute_subg_vector_sps P rc3
  if sg.2 then
    ⟨curN, bstN, imp, rc3, moms, sg.1, st.alpha, obj2, bestObj2,
      st.buf, st.worst, st.worstIdx, st.itr + 1, true, st.stuck⟩
  else
    let num := (dd.map fun pr => pr.2 * pr.2).sum
    let den := (dd.map fun pr =>
      pr.2 * ((st.prevSubg.getD pr.1 0 : ℚ) - (sg.1.getD pr.1 0 : ℚ))).sum
    let alpha2 := if den < ztol then (1 / 10 : ℚ) else tau * num / den
    let w := windowStep st.buf st.worst st.worstIdx st.itr obj2
    ⟨curN, bstN, imp, rc3, moms, sg.1, alpha2, obj2, bestObj2,
      w.1, w.2.1, w.2.2.1, st.itr + 1, false, st.stuck || w.2.2.2⟩

/-- One iteration of the SPS for-loop (lines 297–427) with the
line-search tolerance for this iteration passed as `etaK`.  Order of
events mirrors the C code: tentative momentum step, objective, line
search, best-solution swap, subgradient (breaking when optimal), spectral
`alpha` update, window update. -/
def spsIter (P : SCP) (etaK : ℚ) (st : SpsSt) : SpsSt :=
  spsPost P st (lineSearch P (spsTent P st).2.2.2.1 (spsProd P st) lsFuel
    (1, spsTentObj P st, (spsTent P st).2.1, (spsTent P st).2.2.2.2.2,
      (spsTent P st).2.2.1) (spsAccept P st - etaK))

/-- Fuel-indexed iteration of `spsIter`; an optimal state is fixed
(the C `break`). -/
def spsGo (P : SCP) (eta : ℕ → ℚ) : ℕ → SpsSt → SpsSt
  | 0, st => st
  | f + 1, st =>
    if st.isOpt then st
    else
      let st2 := spsIter P (eta st.itr) st
      if forceB st2 then spsGo P eta f st2 else spsGo P eta f st2

/-- Initial SPS state (lines 278–295): dual from `init_dual_vector`,
window seeded with the initial objective in slot 0 (slots 1–9 are the
uninitialised `malloc` contents, modelled as `none`), zero momentum,
`alpha = 0.1`, initial subgradient. -/
def spsInit (P : SCP) (junk : List ℚ) : SpsSt :=
  let t := init_dual_vector P
  let sg := compute_subg_vector_sps P t.2.1
  ⟨t.1, junk, false, t.2.1, List.replicate P.numRow 0, sg.1, 1 / 10,
    t.2.2, t.2.2, some t.2.2 :: List.replicate 9 none, t.2.2, 0, 0,
    sg.2, false⟩

/-- `spectral_projected_subgradient` (lines 250–449): initialise (an
immediately optimal initial point jumps to cleanup), iterate up to
`maxItr`, and at cleanup copy the dual the `best_dual` pointer designates
(`curr_dual`'s buffer when the run ended by optimality) into the result
store.  `eta` is the per-iteration line-search tolerance sequence (see
the module docstring); `junk` models the uninitialised `dual2` buffer.
Returns (returned objective, stored dual copy). -/
def spectral_projected_subgradient (P : SCP) (eta : ℕ → ℚ) (maxItr : ℕ)
    (junk : List ℚ) : ℚ × List ℚ :=
  let st0 := spsInit P junk
  let stF := spsGo P eta maxItr st0
  if stF.isOpt then (stF.currObj, stF.curC) else (stF.bestObj, stF.bstC)

/-! ## The instance loader, lines 65–180

The file is modelled as its lines, each line as the list of integer
values of its space-separated tokens (`atoi` of each token; the
tokenisation itself is the declared abstraction, so a lone-newline token
in a count position is the explicit token `0` and in a value position is
omitted, matching the `*token != '\n'` skips).  `getline` failure at end
of input and `strtok` returning `NULL` are the `GETLINE`/`STR_TOKEN`
`return -1` paths.  `malloc` is assumed to succeed for every
non-negative byte count (including `malloc(0)`, glibc behaviour), and to
fail — another `return -1` — when a negative `int` count wraps the
`size_t` size argument to a near-`2^64` value.  A store through an
out-of-bounds index (an unvalidated column index `≥ num_col`, a column
receiving more than `num_row` entries, a row declaring more entries than
`num_col`, or the copy into a `col_wise_a` buffer undersized by negative
row counts) is undefined behaviour in C; the model returns the
distinguished `undef` result at the first such store. -/

/-- Token content of an SCP instance file: the lines, each line its
integer tokens in order. -/
structure SCPFile where
  lines : List (List ℤ)
  deriving DecidableEq, Repr

/-- Result of loading: a built instance, the deterministic `-1` failure
(`err`), or undefined behaviour from an out-of-bounds store (`undef`). -/
inductive LoadOut (α : Type _) where
  | ok (a : α) : LoadOut α
  | err : LoadOut α
  | undef : LoadOut α
  deriving DecidableEq, Repr

/-- Consume `n` value tokens from the line stream, starting at a fresh
line boundary (the enclosing reads always begin with `GETLINE`), reading
whole lines as needed; the unread tail of the final line is discarded,
as the next read phase starts with its own `GETLINE`.  `none` is the
`GETLINE` failure when the stream ends first. -/
def consume : ℕ → List (List ℤ) → Option (List ℤ × List (List ℤ))
  | 0, ls => some ([], ls)
  | _ + 1, [] => none
  | n + 1, l :: ls =>
    if n + 1 ≤ l.length then some (l.take (n + 1), ls)
    else
      match consume (n + 1 - l.length) ls with
      | none => none
      | some (a, r) => some (l ++ a, r)

/-- Per-token processing of one constraint row (lines 127–140): the
token is rejected (`return -1`) when `atoi(token) - 1 < 0`; otherwise the
stores `cols[col_idx][col_sizes[col_idx]] = i`, `col_sizes[col_idx]++`
and `rows[i][j++] = col_idx` are in bounds only when `col_idx < num_col`,
the column held fewer than `num_row` entries, and fewer than `num_col`
entries were already stored for this row — any violation is an
out-of-bounds store, i.e. `undef`.  `prior` is the already-built rows
(whose flattened multiplicities are `col_sizes`), `acc` the entries of
the current row so far. -/
def procRowToks (numRow numCol : ℕ) (prior : List (List ℕ)) :
    List ℤ → List ℕ → LoadOut (List ℕ)
  | [], acc => .ok acc
  | t :: ts, acc =>
    if t - 1 < 0 then .err
    else
      let c := (t - 1).toNat
      if numCol ≤ c then .undef
      else if numRow ≤ (prior.flatten ++ acc).count c then .undef
      else if numCol ≤ acc.length then .undef
      else procRowToks numRow numCol prior ts (acc ++ [c])

/-- The row-reading loop (lines 120–141), one iteration per declared
row: a fresh line is read (`err` at end of input), its first token is the
row's entry count (`atoi("\n") = 0` on an empty line, hence `headD 0`),
`num_nonzero` accumulates it, and for a positive count that many entry
tokens are consumed starting on the next line.  Returns the built rows
and the final `num_nonzero`. -/
def loadRows (numRow numCol : ℕ) :
    ℕ → List (List ℤ) → List (List ℕ) → ℤ → LoadOut (List (List ℕ) × ℤ)
  | 0, _, prior, nnz => .ok (prior, nnz)
  | _ + 1, [], _, _ => .err
  | rem + 1, l :: rest, prior, nnz =>
    let cnt : ℤ := l.headD 0
    if 0 < cnt then
      match consume cnt.toNat rest with
      | none => .err
      | some (toks, rem2) =>
        match procRowToks numRow numCol prior toks [] with
        | .ok rowCols =>
          loadRows numRow numCol rem rem2 (prior ++ [rowCols]) (nnz + cnt)
        | .err => .err
        | .undef => .undef
    else loadRows numRow numCol rem rest (prior ++ [[]]) (nnz + cnt)

/-- `load_scp_instance` (lines 65–180): header line with the two counts
(missing line or missing second token fails); `malloc(num_col *
sizeof(int))` fails for a negative `num_col`; the cost loop consumes
`num_col` tokens; `malloc(num_row * sizeof(int *))` fails for a negative
`num_row`; the row loop as above; `malloc(num_nonzero * sizeof(int))`
fails for a negative `num_nonzero`, and when negative row counts leave
`0 ≤ num_nonzero` smaller than the entries actually stored, the copy
into `col_wise_a` overruns the buffer (`undef`).  On success the
column-wise structure lists, for each column, its incident rows in
reading order. -/
def load_scp_instance (f : SCPFile) : LoadOut SCP :=
  match f.lines with
  | (t1 :: t2 :: _) :: rest =>
    if t2 < 0 then .err
    else
      match consume t2.toNat rest with
      | none => .err
      | some (costs, rem) =>
        if t1 < 0 then .err
        else
          match loadRows t1.toNat t2.toNat t1.toNat rem [] 0 with
          | .ok (colsOfRow, nnz) =>
            if nnz < 0 then .err
            else if nnz.toNat < colsOfRow.flatten.length then .undef
            else
              .ok ⟨t1.toNat, t2.toNat, costs, colsOfRow,
                (List.range t2.toNat).map fun c =>
                  ((List.range t1.toNat).map fun r =>
                    List.replicate ((colsOfRow.getD r []).count c) r).flatten⟩
          | .err => .err
          | .undef => .undef
  | _ => .err

/-! ## Extended-rational model of the iteration-0 eta computation

`eta = eta_not / pow(itr, 1.1)` (line 348) divides by `pow(0, 1.1) = +0`
on the first iteration.  The values reached by that computation are
modelled on rationals extended with the two IEEE-754 infinities; the
operations below implement the IEEE rules for exactly the case shapes
that arise (no NaN arises under the stated hypotheses, and the NaN
fallback arms are marked). -/

/-- Extended rationals: finite values plus the two IEEE infinities. -/
inductive XQ where
  | fin (q : ℚ) : XQ
  | pinf : XQ
  | ninf : XQ
  deriving DecidableEq, Repr

namespace XQ

/-- IEEE division; `a / ±0 = ±∞` by the sign of `a` (the `0/0` NaN arm is
unreachable under the hypotheses of the theorems using this model). -/
def xdiv : XQ → XQ → XQ
  | fin a, fin b =>
    if b = 0 then (if 0 < a then pinf else if a < 0 then ninf else fin 0)
    else fin (a / b)
  | fin _, pinf => fin 0
  | fin _, ninf => fin 0
  | pinf, fin b => if 0 ≤ b then pinf else ninf
  | ninf, fin b => if 0 ≤ b then ninf else pinf
  | _, _ => fin 0

/-- IEEE subtraction on the extended values (the `∞ − ∞` NaN arms are
unreachable in the modelled computation). -/
def xsub : XQ → XQ → XQ
  | fin a, fin b => fin (a - b)
  | fin _, pinf => ninf
  | fin _, ninf => pinf
  | pinf, fin _ => pinf
  | ninf, fin _ => ninf
  | pinf, ninf => pinf
  | ninf, pinf => ninf
  | pinf, pinf => fin 0
  | ninf, ninf => fin 0

/-- IEEE comparison `a < b`. -/
def xlt : XQ → XQ → Bool
  | fin a, fin b => decide (a < b)
  | fin _, pinf => true
  | fin _, ninf => false
  | pinf, _ => false
  | ninf, fin _ => true
  | ninf, pinf => true
  | ninf, ninf => false

end XQ

/-- IEEE `pow(±0, y) = +0` for `y > 0`: the value of `pow(itr, 1.1)` at
`itr = 0`. -/
def powZero11 : XQ := .fin 0

/-- The tolerance `eta = eta_not / pow(itr, 1.1)` computed on iteration 0. -/
def etaAtZero (etaNot : XQ) : XQ := XQ.xdiv etaNot powZero11

/-- The acceptance threshold
`accept = worst_obj + gamma * tau * product − eta` (line 349) on
iteration 0, with `tau = 1`, `gamma = 0.1` and `product` already divided
by alpha. -/
def acceptAtZero (worst p : ℚ) (etaNot : XQ) : XQ :=
  XQ.xsub (.fin (worst + (1 / 10) * 1 * p)) (etaAtZero etaNot)

/-- The while-loop guard `curr_obj < accept` (line 350) on iteration 0. -/
def guardAtZero (currObj worst p : ℚ) (etaNot : XQ) : Bool :=
  XQ.xlt (.fin currObj) (acceptAtZero worst p etaNot)

/-- Squared Euclidean norm of an integer vector (the `eta_not`
accumulation of lines 289–292 before the square root). -/
def sumSq (s : List ℤ) : ℤ := (s.map fun x => x * x).sum

/-! ## List helper lemmas -/

theorem getD_set_self {α : Type _} (l : List α) (i : ℕ) (v d : α)
    (h : i < l.length) : (l.set i v).getD i d = v := by
  simp [List.getD_eq_getElem?_getD, List.getElem?_set_self h]

theorem getD_set_ne {α : Type _} (l : List α) {i j : ℕ} (v d : α)
    (h : i ≠ j) : (l.set i v).getD j d = l.getD j d := by
  simp [List.getD_eq_getElem?_getD, List.getElem?_set_ne h]

theorem getD_set_split {α : Type _} (l : List α) (i j : ℕ) (v d : α) :
    (l.set i v).getD j d = if i = j ∧ j < l.length then v else l.getD j d := by
  by_cases hij : i = j
  · subst hij
    by_cases hl : i < l.length
    · simp [hl, getD_set_self _ _ _ _ hl]
    · simp [hl, List.set_eq_of_length_le (Nat.le_of_not_lt hl)]
  · simp [hij, getD_set_ne _ _ _ hij]

theorem nonneg_sum_of_nonneg {l : List ℚ} (h : ∀ x ∈ l, 0 ≤ x) :
    0 ≤ l.sum := by
  induction l with
  | nil => simp
  | cons a l ih =>
    simp only [List.sum_cons]
    have := h a (by simp)
    have := ih fun x hx => h x (by simp [hx])
    linarith

/-- The line-search loop does nothing when its guard fails at entry. -/
theorem lineSearch_noop (P : SCP) (dd : List (ℕ × ℚ)) (p : ℚ) (fuel : ℕ)
    (st : ℚ × ℚ × List ℚ × ℚ × List ℚ) (accept : ℚ)
    (h : ¬ st.2.1 < accept) : lineSearch P dd p fuel st accept = st := by
  cases fuel <;> simp [lineSearch, h]

/-- The SPS iteration does not depend on the iteration's eta whenever the
tentative objective already meets the eta-free acceptance threshold
(larger eta only makes acceptance easier). -/
theorem spsIter_eta_indep (P : SCP) (st : SpsSt) (e : ℚ) (he : 0 ≤ e)
    (hacc : ¬ spsTentObj P st < spsAccept P st) :
    spsIter P e st = spsIter P 0 st := by
  unfold spsIter
  rw [lineSearch_noop P (spsTent P st).2.2.2.1 (spsProd P st) lsFuel
      (1, spsTentObj P st, (spsTent P st).2.1, (spsTent P st).2.2.2.2.2,
        (spsTent P st).2.2.1) (spsAccept P st - e)
      (fun hlt => hacc (by
        have hlt2 : spsTentObj P st < spsAccept P st - e := hlt
        linarith)),
    lineSearch_noop P (spsTent P st).2.2.2.1 (spsProd P st) lsFuel
      (1, spsTentObj P st, (spsTent P st).2.1, (spsTent P st).2.2.2.2.2,
        (spsTent P st).2.2.1) (spsAccept P st - 0)
      (fun hlt => hacc (by
        have hlt2 : spsTentObj P st < spsAccept P st - 0 := hlt
        linarith))]

/-- Unfolds one non-optimal iteration of the SPS loop. -/
theorem spsGo_step (P : SCP) (eta : ℕ → ℚ) (f : ℕ) (st : SpsSt)
    (h : st.isOpt = false) :
    spsGo P eta (f + 1) st = spsGo P eta f (spsIter P (eta st.itr) st) := by
  simp [spsGo, h, forceB_eq_true]

/-- An optimal state is fixed by the SPS loop (the C `break`). -/
theorem spsGo_opt (P : SCP) (eta : ℕ → ℚ) (f : ℕ) (st : SpsSt)
    (h : st.isOpt = true) : spsGo P eta f st = st := by
  cases f <;> simp [spsGo, h]

/-! ## Claim C8: loader validation -/

/-- `consume` fails exactly when the stream holds fewer tokens than
requested (the `GETLINE` truncation failure). -/
theorem consume_eq_none : ∀ (n : ℕ) (ls : List (List ℤ)),
    consume n ls = none ↔ ls.flatten.length < n
  | 0, ls => by simp [consume]
  | n + 1, [] => by simp [consume]
  | n + 1, l :: ls => by
    rw [consume]
    by_cases h : n + 1 ≤ l.length
    · simp only [h, if_true, List.flatten_cons, List.length_append]
      exact iff_of_false (by simp) (by omega)
    · simp only [h, if_false]
      cases hc : consume (n + 1 - l.length) ls with
      | none =>
        have hlt := (consume_eq_none (n + 1 - l.length) ls).mp hc
        simp only [List.flatten_cons, List.length_append]
        exact iff_of_true trivial (by omega)
      | some pr =>
        have hge : ¬ ls.flatten.length < n + 1 - l.length := by
          rw [← consume_eq_none]
          simp [hc]
        obtain ⟨a, r⟩ := pr
        simp only [List.flatten_cons, List.length_append]
        exact iff_of_false (by simp) (by omega)

/-- Consuming exactly one full line. -/
theorem consume_exact (l : List ℤ) (ls : List (List ℤ)) (hl : l ≠ []) :
    consume l.length (l :: ls) = some (l, ls) := by
  cases l with
  | nil => exact absurd rfl hl
  | cons t ts =>
    show consume (ts.length + 1) ((t :: ts) :: ls) = some (t :: ts, ls)
    rw [consume]
    simp [List.take_succ_cons,
      show ts.take ts.length = ts from List.take_length ts]

/-- Under the in-range and capacity conditions the row scan stores the
(shifted) column indices of all its tokens. -/
theorem procRowToks_ok (numRow numCol : ℕ) (prior : List (List ℕ)) :
    ∀ (toks : List ℤ) (acc : List ℕ),
      acc.length + toks.length ≤ numCol →
      (∀ t ∈ toks, 1 ≤ t ∧ t ≤ (numCol : ℤ)) →
      (∀ c : ℕ, ((prior.flatten ++ acc) ++
        toks.map fun u => (u - 1).toNat).count c ≤ numRow) →
      procRowToks numRow numCol prior toks acc =
        .ok (acc ++ toks.map fun t => (t - 1).toNat)
  | [], acc, _, _, _ => by simp [procRowToks]
  | t :: ts, acc, h1, h2, h3 => by
    obtain ⟨ht1, ht2⟩ := h2 t (List.mem_cons_self _ _)
    have hc : (t - 1).toNat < numCol := by omega
    have hcount : (prior.flatten ++ acc).count (t - 1).toNat < numRow := by
      have hfull := h3 (t - 1).toNat
      simp only [List.map_cons, List.count_append, List.count_cons_self] at hfull
      have hsplit : ((prior.flatten ++ acc)).count (t - 1).toNat ≤
          (prior.flatten ++ acc).count (t - 1).toNat := le_refl _
      simp only [List.count_append] at hfull ⊢
      omega
    have hlen : acc.length < numCol := by
      simp only [List.length_cons] at h1
      omega
    have ih := procRowToks_ok numRow numCol prior ts (acc ++ [(t - 1).toNat])
      (by simp only [List.length_append, List.length_cons, List.length_nil,
            List.length_cons] at h1 ⊢
          omega)
      (fun u hu => h2 u (List.mem_cons_of_mem _ hu))
      (by
        intro c
        have := h3 c
        simp only [List.map_cons, List.count_append, List.count_cons,
          List.count_nil] at this ⊢
        omega)
    simp only [procRowToks]
    rw [if_neg (by omega), if_neg (by omega), if_neg (by omega),
      if_neg (by omega), ih]
    simp

/-- Under the in-range and capacity conditions, the row scan returns the
deterministic `-1` failure exactly when some token is `≤ 0` (the only
validation in the code, line 133). -/
theorem procRowToks_err_iff (numRow numCol : ℕ) (prior : List (List ℕ)) :
    ∀ (toks : List ℤ) (acc : List ℕ),
      acc.length + toks.length ≤ numCol →
      (∀ t ∈ toks, t ≤ (numCol : ℤ)) →
      (∀ c : ℕ, ((prior.flatten ++ acc) ++
        toks.map fun u => (u - 1).toNat).count c ≤ numRow) →
      (procRowToks numRow numCol prior toks acc = .err ↔ ∃ t ∈ toks, t ≤ 0)
  | [], acc, _, _, _ => by simp [procRowToks]
  | t :: ts, acc, h1, h2, h3 => by
    by_cases hbad : t ≤ 0
    · refine iff_of_true ?_ ⟨t, List.mem_cons_self _ _, hbad⟩
      simp only [procRowToks]
      rw [if_pos (by omega)]
    · push_neg at hbad
      have ht2 := h2 t (List.mem_cons_self _ _)
      have hc : (t - 1).toNat < numCol := by omega
      have hcount : (prior.flatten ++ acc).count (t - 1).toNat < numRow := by
        have hfull := h3 (t - 1).toNat
        simp only [List.map_cons, List.count_append, List.count_cons_self]
          at hfull
        simp only [List.count_append] at hfull ⊢
        omega
      have hlen : acc.length < numCol := by
        simp only [List.length_cons] at h1
        omega
      have ih := procRowToks_err_iff numRow numCol prior ts
        (acc ++ [(t - 1).toNat])
        (by simp only [List.length_append, List.length_cons, List.length_nil]
              at h1 ⊢
            omega)
        (fun u hu => h2 u (List.mem_cons_of_mem _ hu))
        (by
          intro c
          have := h3 c
          simp only [List.map_cons, List.count_append, List.count_cons,
            List.count_nil] at this ⊢
          omega)
      simp only [procRowToks]
      rw [if_neg (by omega), if_neg (by omega), if_neg (by omega),
        if_neg (by omega), ih]
      constructor
      · rintro ⟨u, hu, hule⟩
        exact ⟨u, List.mem_cons_of_mem _ hu, hule⟩
      · rintro ⟨u, hu, hule⟩
        rcases List.mem_cons.mp hu with rfl | hu
        · omega
        · exact ⟨u, hu, hule⟩

/-- A clean success of the row scan forces every consumed token into the
valid range `[1, numCol]`, and records exactly the shifted indices. -/
theorem procRowToks_ok_inv (numRow numCol : ℕ) (prior : List (List ℕ)) :
    ∀ (toks : List ℤ) (acc out : List ℕ),
      procRowToks numRow numCol prior toks acc = .ok out →
      (∀ t ∈ toks, 1 ≤ t ∧ (t - 1).toNat < numCol) ∧
      out = acc ++ (toks.map fun t => (t - 1).toNat)
  | [], acc, out, h => by
    simp only [procRowToks, LoadOut.ok.injEq] at h
    exact ⟨by simp, by simp [h]⟩
  | t :: ts, acc, out, h => by
    simp only [procRowToks] at h
    by_cases h0 : t - 1 < 0
    · rw [if_pos h0] at h
      simp at h
    · rw [if_neg h0] at h
      by_cases hcn : numCol ≤ (t - 1).toNat
      · rw [if_pos hcn] at h
        simp at h
      · rw [if_neg hcn] at h
        by_cases hct : numRow ≤ (prior.flatten ++ acc).count (t - 1).toNat
        · rw [if_pos hct] at h
          simp at h
        · rw [if_neg hct] at h
          by_cases hl : numCol ≤ acc.length
          · rw [if_pos hl] at h
            simp at h
          · rw [if_neg hl] at h
            obtain ⟨ha, hb⟩ := procRowToks_ok_inv numRow numCol prior ts
              (acc ++ [(t - 1).toNat]) out h
            refine ⟨?_, ?_⟩
            · intro u hu
              rcases List.mem_cons.mp hu with rfl | hu
              · exact ⟨by omega, by omega⟩
              · exact ha u hu
            · rw [hb]
              simp
  termination_by toks => toks.length

/-- The row loop on a well-formed block structure (each row's entry
count on its own line, the entries on the next) builds exactly the
shifted rows. -/
theorem loadRows_ok (numRow numCol : ℕ) :
    ∀ (rows : List (List ℤ)) (after : List (List ℤ)) (prior : List (List ℕ))
      (nnz : ℤ),
      (∀ rw ∈ rows, rw ≠ [] ∧ rw.length ≤ numCol ∧
        ∀ t ∈ rw, 1 ≤ t ∧ t ≤ (numCol : ℤ)) →
      (∀ c : ℕ, (prior.flatten ++
        (rows.flatten.map fun u => (u - 1).toNat)).count c ≤ numRow) →
      loadRows numRow numCol rows.length
          ((rows.map fun rw => [[(rw.length : ℤ)], rw]).flatten ++ after)
          prior nnz =
        .ok (prior ++ rows.map fun rw => rw.map fun t => (t - 1).toNat,
          nnz + ((rows.map fun rw => (rw.length : ℤ)).sum))
  | [], after, prior, nnz, _, _ => by simp [loadRows]
  | rw :: rest, after, prior, nnz, hrows, hcap => by
    obtain ⟨hne, hlen, htb⟩ := hrows rw (List.mem_cons_self _ _)
    have hpos : (0 : ℤ) < (rw.length : ℤ) := by
      cases rw with
      | nil => exact absurd rfl hne
      | cons a l => simp
    have hok := procRowToks_ok numRow numCol prior rw []
      (by simpa using hlen) htb
      (by
        intro c
        have := hcap c
        simp only [List.flatten_cons, List.map_append, List.count_append,
          List.append_nil] at this ⊢
        omega)
    show loadRows numRow numCol (rest.length + 1)
        ([(rw.length : ℤ)] :: rw ::
          ((rest.map fun rw => [[(rw.length : ℤ)], rw]).flatten ++ after))
        prior nnz = _
    rw [loadRows]
    simp only [List.headD_cons]
    rw [if_pos hpos, Int.toNat_natCast, consume_exact rw _ hne]
    simp only [hok, List.nil_append]
    have ih := loadRows_ok numRow numCol rest after
      (prior ++ [rw.map fun t => (t - 1).toNat]) (nnz + (rw.length : ℤ))
      (fun rw2 h2 => hrows rw2 (List.mem_cons_of_mem _ h2))
      (by
        intro c
        have := hcap c
        simp only [List.flatten_cons, List.flatten_append, List.map_append,
          List.count_append, List.flatten_nil, List.append_nil] at this ⊢
        omega)
    rw [ih]
    simp only [List.map_cons, List.sum_cons, LoadOut.ok.injEq, Prod.mk.injEq]
    constructor
    · simp [List.append_assoc]
    · ring

/-- Sum of cast lengths equals the cast of the summed lengths. -/
theorem sum_cast_lengths (rows : List (List ℤ)) :
    (rows.map fun rw => (rw.length : ℤ)).sum =
      ((rows.map List.length).sum : ℤ) := by
  induction rows with
  | nil => simp
  | cons rw rest ih => simp [ih]

/-- Claim C8 (corrected), counterexample: the claim says loading fails
whenever the declared row count, column count, or a per-row entry count
is non-positive; but the file whose single line declares the counts
`0 0` loads successfully into the empty instance (every loop consumes
nothing and every `malloc` gets a non-negative size). -/
theorem C8_counterexample_nonpositive_counts :
    load_scp_instance ⟨[[0, 0]]⟩ = .ok ⟨0, 0, [], [], []⟩ := by rfl

/-- Claim C8 (amended): the loader's failure behaviour is: (A) a missing
or one-token header line fails; (B) a negative declared row or column
count fails (the wrapped `malloc` size); (C) fewer cost tokens than the
declared column count fails, and (D) in general token consumption fails
exactly on truncation; (E) a missing constraint line fails; (F) a clean
row-scan success forces every consumed column token into `[1, numCol]`;
(G) within capacity bounds the row scan fails with `-1` exactly when
some token is `≤ 0` — the code's only explicit validation; (H) a token
above the column range is an out-of-bounds store (undefined behaviour),
not the clean failure; and (I) a complete well-formed in-range file
loads to the expected instance.  Zero counts are accepted (see the
counterexample), so "non-positive counts are rejected" is false, and
the upper index range is never cleanly rejected. -/
theorem C8_loader_amended :
    (∀ f : SCPFile, (f.lines.headD []).length < 2 →
      load_scp_instance f = .err) ∧
    (∀ (t1 t2 : ℤ) (tl : List ℤ) (rest : List (List ℤ)), t1 < 0 ∨ t2 < 0 →
      load_scp_instance ⟨(t1 :: t2 :: tl) :: rest⟩ = .err) ∧
    (∀ (t1 t2 : ℤ) (tl : List ℤ) (rest : List (List ℤ)), 0 ≤ t2 →
      rest.flatten.length < t2.toNat →
      load_scp_instance ⟨(t1 :: t2 :: tl) :: rest⟩ = .err) ∧
    (∀ (n : ℕ) (ls : List (List ℤ)),
      consume n ls = none ↔ ls.flatten.length < n) ∧
    (∀ (numRow numCol rem : ℕ) (prior : List (List ℕ)) (nnz : ℤ),
      loadRows numRow numCol (rem + 1) [] prior nnz = .err) ∧
    (∀ (numRow numCol : ℕ) (prior : List (List ℕ)) (toks : List ℤ)
      (acc out : List ℕ),
      procRowToks numRow numCol prior toks acc = .ok out →
      (∀ t ∈ toks, 1 ≤ t ∧ (t - 1).toNat < numCol) ∧
      out = acc ++ (toks.map fun t => (t - 1).toNat)) ∧
    (∀ (numRow numCol : ℕ) (prior : List (List ℕ)) (toks : List ℤ)
      (acc : List ℕ),
      acc.length + toks.length ≤ numCol →
      (∀ t ∈ toks, t ≤ (numCol : ℤ)) →
      (∀ c : ℕ, ((prior.flatten ++ acc) ++
        toks.map fun u => (u - 1).toNat).count c ≤ numRow) →
      (procRowToks numRow numCol prior toks acc = .err ↔
        ∃ t ∈ toks, t ≤ 0)) ∧
    (∀ (numRow numCol : ℕ) (prior : List (List ℕ)) (t : ℤ) (ts : List ℤ)
      (acc : List ℕ), 1 ≤ t → numCol ≤ (t - 1).toNat →
      procRowToks numRow numCol prior (t :: ts) acc = .undef) ∧
    (∀ (numRow numCol : ℕ) (costs : List ℤ) (rows : List (List ℤ)),
      costs.length = numCol → rows.length = numRow → 0 < numCol →
      (∀ rw ∈ rows, rw ≠ [] ∧ rw.length ≤ numCol ∧
        ∀ t ∈ rw, 1 ≤ t ∧ t ≤ (numCol : ℤ)) →
      (∀ c : ℕ, ((rows.flatten.map fun u => (u - 1).toNat)).count c ≤ numRow) →
      load_scp_instance ⟨[(numRow : ℤ), (numCol : ℤ)] :: costs ::
          (rows.map fun rw => [[(rw.length : ℤ)], rw]).flatten⟩ =
        .ok ⟨numRow, numCol, costs,
          rows.map fun rw => rw.map fun t => (t - 1).toNat,
          (List.range numCol).map fun c =>
            ((List.range numRow).map fun r =>
              List.replicate
                (((rows.map fun rw => rw.map fun t => (t - 1).toNat).getD
                  r []).count c) r).flatten⟩) := by
  refine ⟨?_, ?_, ?_, consume_eq_none, ?_, procRowToks_ok_inv, procRowToks_err_iff,
    ?_, ?_⟩
  · intro f h
    obtain ⟨lines⟩ := f
    cases lines with
    | nil => rfl
    | cons l rest =>
      cases l with
      | nil => rfl
      | cons t1 l2 =>
        cases l2 with
        | nil => rfl
        | cons t2 l3 =>
          exfalso
          simp at h
          omega
  · intro t1 t2 tl rest h
    by_cases hc2 : t2 < 0
    · simp [load_scp_instance, hc2]
    · have h1 : t1 < 0 := by
        rcases h with h1 | h2
        · exact h1
        · exact absurd h2 hc2
      simp only [load_scp_instance]
      rw [if_neg hc2]
      cases hcon : consume t2.toNat rest with
      | none => simp
      | some pr =>
        obtain ⟨a, r⟩ := pr
        simp [h1]
  · intro t1 t2 tl rest h0 hlt
    have hnone : consume t2.toNat rest = none := (consume_eq_none _ _).mpr hlt
    simp [load_scp_instance, if_neg (not_lt.mpr h0), hnone]
  · intro numRow numCol rem prior nnz
    rfl
  · intro numRow numCol prior t ts acc ht hge
    simp only [procRowToks]
    rw [if_neg (by omega), if_pos hge]
  · intro numRow numCol costs rows hcost hrows hpos hwf hcap
    have hcostne : costs ≠ [] := by
      intro hnil
      rw [hnil] at hcost
      simp at hcost
      omega
    have hcons : consume ((numCol : ℤ)).toNat
        (costs :: (rows.map fun rw => [[(rw.length : ℤ)], rw]).flatten) =
        some (costs, (rows.map fun rw => [[(rw.length : ℤ)], rw]).flatten) := by
      rw [Int.toNat_natCast, ← hcost]
      exact consume_exact costs _ hcostne
    have hlr := loadRows_ok numRow numCol rows [] [] 0 hwf
      (by
        intro c
        have := hcap c
        simpa using this)
    rw [List.append_nil, hrows] at hlr
    simp only [List.nil_append, zero_add] at hlr
    have hnnzsum := sum_cast_lengths rows
    have hnnz : (0 : ℤ) ≤ (rows.map fun rw => (rw.length : ℤ)).sum := by
      rw [hnnzsum]
      exact Int.natCast_nonneg _
    have hflat : ((rows.map fun rw => rw.map fun t => (t - 1).toNat) :
        List (List ℕ)).flatten.length =
        ((rows.map fun rw => (rw.length : ℤ)).sum).toNat := by
      rw [hnnzsum, Int.toNat_natCast, List.length_flatten, List.map_map]
      refine congrArg List.sum (List.map_congr_left ?_)
      intro rw2 _
      simp
    simp only [load_scp_instance]
    rw [if_neg (by omega)]
    simp only [hcons]
    rw [if_neg (by omega)]
    simp only [Int.toNat_natCast, hlr]
    rw [if_neg (not_lt.mpr hnnz), if_neg (by omega)]

/-- Concrete instantiation of every part of `C8_loader_amended`: a
one-token header, a negative declared count, truncated cost tokens, the
consumption criterion, a missing constraint line, a successful row scan,
the token-sign failure criterion, an above-range token, and a complete
one-row file. -/
theorem C8_loader_amended_witness :
    load_scp_instance ⟨[[5]]⟩ = .err ∧
    load_scp_instance ⟨[[-1, 2]]⟩ = .err ∧
    load_scp_instance ⟨[[1, 2], [7]]⟩ = .err ∧
    (consume 3 [[4], [5]] = none ↔ ([[4], [5]] : List (List ℤ)).flatten.length < 3) ∧
    loadRows 1 2 1 [] [] 0 = .err ∧
    ((∀ t ∈ ([1, 3] : List ℤ), 1 ≤ t ∧ (t - 1).toNat < 3) ∧
      ([0, 2] : List ℕ) = [] ++ (([1, 3] : List ℤ).map fun t => (t - 1).toNat)) ∧
    (procRowToks 1 2 [] [0] [] = .err ↔ ∃ t ∈ ([0] : List ℤ), t ≤ 0) ∧
    procRowToks 1 2 [] [5] [] = .undef ∧
    load_scp_instance ⟨[[1, 1], [3], [1], [1]]⟩ = .ok ⟨1, 1, [3], [[0]], [[0]]⟩ :=
  ⟨C8_loader_amended.1 ⟨[[5]]⟩ (by decide),
   C8_loader_amended.2.1 (-1) 2 [] [] (Or.inl (by decide)),
   C8_loader_amended.2.2.1 1 2 [] [[7]] (by decide) (by decide),
   C8_loader_amended.2.2.2.1 3 [[4], [5]],
   C8_loader_amended.2.2.2.2.1 1 2 0 [] 0,
   C8_loader_amended.2.2.2.2.2.1 2 3 [] [1, 3] [] [0, 2] (by decide),
   C8_loader_amended.2.2.2.2.2.2.1 1 2 [] [0] [] (by decide) (by decide)
     (fun c => le_trans (List.count_le_length _ _) (by simp)),
   C8_loader_amended.2.2.2.2.2.2.2.1 1 2 [] 5 [] [] (by decide) (by decide),
   C8_loader_amended.2.2.2.2.2.2.2.2 1 1 [3] [[1]] (by decide) (by decide)
     (by decide) (by decide)
     (fun c => le_trans (List.count_le_length _ _) (by simp))⟩

/-! ## Claim C9: the iteration-0 division by zero -/

/-- Claim C9 (confirmed): on the first SPS iteration, `eta` is computed
by dividing the strictly positive `eta_not` (whose square, the squared
norm of a non-zero integer subgradient vector, is at least 1, so
`eta_not = sqrt(...) ≥ 1`) by `pow(0, 1.1) = 0`; under IEEE semantics the
quotient is `+∞`, the acceptance threshold is `−∞`, and the first
tentative step is accepted with `tau = 1` and no backtracking whatever
the objective is. -/
theorem C9_first_iteration_eta_infinite (s : List ℤ) (q worst p currObj : ℚ)
    (hs : ∃ x ∈ s, x ≠ 0) (hq : 0 < q) :
    1 ≤ sumSq s ∧
    (1 : ℝ) ≤ Real.sqrt ((sumSq s : ℤ) : ℝ) ∧
    etaAtZero (.fin q) = .pinf ∧
    acceptAtZero worst p (.fin q) = .ninf ∧
    guardAtZero currObj worst p (.fin q) = false ∧
    (∀ (P : SCP) (dd : List (ℕ × ℚ)) (pp : ℚ) (fuel : ℕ) (obj : ℚ)
      (cur : List ℚ) (so : ℚ) (rc : List ℚ) (A : ℚ), ¬ obj < A →
      lineSearch P dd pp fuel (1, obj, cur, so, rc) A = (1, obj, cur, so, rc)) := by
  obtain ⟨x, hx, hxne⟩ := hs
  have hsq : 1 ≤ sumSq s := by
    have hxx : (1 : ℤ) ≤ x * x := by
      rcases lt_or_gt_of_ne hxne with h | h <;> nlinarith
    have hmem : x * x ∈ s.map fun y => y * y := List.mem_map.mpr ⟨x, hx, rfl⟩
    have hnn : ∀ y ∈ s.map fun y => y * y, (0 : ℤ) ≤ y := by
      intro y hy
      rcases List.mem_map.mp hy with ⟨z, _, rfl⟩
      exact mul_self_nonneg z
    exact le_trans hxx (List.single_le_sum hnn _ hmem)
  refine ⟨hsq, ?_, ?_, ?_, ?_, ?_⟩
  · rw [show (1 : ℝ) = Real.sqrt 1 from (Real.sqrt_one).symm]
    exact Real.sqrt_le_sqrt (by exact_mod_cast hsq)
  · simp [etaAtZero, powZero11, XQ.xdiv, hq]
  · simp [acceptAtZero, etaAtZero, powZero11, XQ.xdiv, hq, XQ.xsub]
  · simp [guardAtZero, acceptAtZero, etaAtZero, powZero11, XQ.xdiv, hq,
      XQ.xsub, XQ.xlt]
  · intro P dd pp fuel obj cur so rc A hA
    exact lineSearch_noop P dd pp fuel (1, obj, cur, so, rc) A hA

/-! ## Characterisation of the subgradient computations -/

theorem decRows_length (rows : List ℕ) (s : List ℤ) :
    (decRows s rows).length = s.length := by
  induction rows generalizing s with
  | nil => rfl
  | cons r rest ih => simp [decRows, ih]

theorem decRows_getD (rows : List ℕ) (s : List ℤ) (r : ℕ)
    (hr : r < s.length) :
    (decRows s rows).getD r 0 =
      s.getD r 0 - ((rows.filter fun x => x < s.length).count r : ℤ) := by
  induction rows generalizing s with
  | nil => simp [decRows]
  | cons a rest ih =>
    rw [decRows, ih (s.set a (s.getD a 0 - 1)) (by simpa using hr)]
    simp only [List.length_set]
    by_cases ha : a < s.length
    · by_cases har : a = r
      · subst har
        rw [getD_set_self _ _ _ _ ha]
        simp [List.filter_cons, ha, List.count_cons_self]
        ring
      · rw [getD_set_ne _ _ _ har]
        simp [List.filter_cons, ha, List.count_cons_of_ne (fun h => har h.symm)]
    · rw [List.set_eq_of_length_le (Nat.le_of_not_lt ha)]
      simp [List.filter_cons, ha]

theorem subgColsLoop_length (P : SCP) (rc : List ℚ) (cols : List ℕ)
    (s : List ℤ) : (subgColsLoop P rc cols s).length = s.length := by
  induction cols generalizing s with
  | nil => rfl
  | cons c rest ih =>
    rw [subgColsLoop, ih]
    split
    · exact decRows_length _ _
    · rfl

theorem subgColsLoop_getD (P : SCP) (rc : List ℚ) (cols : List ℕ)
    (s : List ℤ) (r : ℕ) (hr : r < s.length)
    (hb : ∀ c ∈ cols, ∀ x ∈ P.rowsCol c, x < s.length) :
    (subgColsLoop P rc cols s).getD r 0 =
      s.getD r 0 - (cols.map fun c =>
        if rc.getD c 0 < tol14 then ((P.rowsCol c).count r : ℤ) else 0).sum := by
  induction cols generalizing s with
  | nil => simp [subgColsLoop]
  | cons c rest ih =>
    rw [subgColsLoop]
    by_cases h : rc.getD c 0 < tol14
    · rw [if_pos h,
        ih (decRows s (P.rowsCol c)) (by rwa [decRows_length])
          (fun c hc x hx => by
            rw [decRows_length]
            exact hb c (List.mem_cons_of_mem _ hc) x hx),
        decRows_getD (P.rowsCol c) s r hr]
      have heq : (P.rowsCol c).filter (fun x => x < s.length) = P.rowsCol c :=
        List.filter_eq_self.mpr fun x hx => by
          simpa using hb c (List.mem_cons_self c rest) x hx
      rw [heq, List.map_cons, List.sum_cons, if_pos h]
      ring
    · rw [if_neg h,
        ih s hr (fun c hc x hx => hb c (List.mem_cons_of_mem _ hc) x hx),
        List.map_cons, List.sum_cons, if_neg h]
      ring

theorem subg_sps_length (P : SCP) (rc : List ℚ) :
    (compute_subg_vector_sps P rc).1.length = P.numRow := by
  simp [compute_subg_vector_sps, subgColsLoop_length]

/-- Sum over one distinguished index of `List.range`. -/
theorem sum_range_single (N a : ℕ) (g : ℕ → ℤ) (ha : a < N) :
    ((List.range N).map fun c => if c = a then g c else 0).sum = g a := by
  induction N with
  | zero => omega
  | succ N ih =>
    rw [List.range_succ, List.map_append, List.sum_append]
    by_cases haN : a = N
    · subst haN
      have : ∀ c ∈ List.range a, (if c = a then g c else 0) = 0 := by
        intro c hc
        have := List.mem_range.mp hc
        simp [Nat.ne_of_lt this]
      rw [List.sum_eq_zero fun x hx => by
        rcases List.mem_map.mp hx with ⟨c, hc, rfl⟩; exact this c hc]
      simp
    · rw [ih (by omega)]
      simp [Ne.symm haN]

/-- Pointwise sum of two mapped functions. -/
theorem sum_map_add_distrib (l : List ℕ) (g h : ℕ → ℤ) :
    (l.map fun c => g c + h c).sum = (l.map g).sum + (l.map h).sum := by
  induction l with
  | nil => simp
  | cons a l ih => simp [ih]; ring

/-- Counting the members of `l` that satisfy `f` by summing indicator
counts over `List.range N`. -/
theorem sum_ind_count (l : List ℕ) (N : ℕ) (f : ℕ → Bool)
    (hl : ∀ x ∈ l, x < N) :
    ((List.range N).map fun c => if f c then (l.count c : ℤ) else 0).sum
      = (l.countP f : ℤ) := by
  induction l with
  | nil =>
    rw [List.sum_eq_zero]
    · simp
    · intro x hx
      rcases List.mem_map.mp hx with ⟨c, _, rfl⟩
      simp [List.count_nil]
  | cons a l ih =>
    have ha : a < N := hl a (List.mem_cons_self a l)
    have step : ∀ c : ℕ, (if f c then ((a :: l).count c : ℤ) else 0) =
        (if f c then (l.count c : ℤ) else 0) +
        (if c = a then (if f c then 1 else 0) else 0) := by
      intro c
      by_cases hfc : f c <;> by_cases hca : c = a
      · subst hca; simp [hfc, List.count_cons_self]
      · simp [hfc, hca, List.count_cons_of_ne (fun h => hca h.symm)]
      · subst hca; simp [hfc]
      · simp [hfc, hca]
    calc ((List.range N).map fun c => if f c then ((a :: l).count c : ℤ) else 0).sum
        = ((List.range N).map fun c =>
            (if f c then (l.count c : ℤ) else 0) +
            (if c = a then (if f c then 1 else 0) else 0)).sum := by
          congr 1; exact List.map_congr_left fun c _ => step c
      _ = ((List.range N).map fun c => if f c then (l.count c : ℤ) else 0).sum +
          ((List.range N).map fun c =>
            if c = a then (if f c then 1 else 0) else 0).sum :=
          sum_map_add_distrib _ _ _
      _ = (l.countP f : ℤ) + (if f a then 1 else 0) := by
          rw [ih fun x hx => hl x (List.mem_cons_of_mem _ hx),
            sum_range_single N a _ ha]
      _ = ((a :: l).countP f : ℤ) := by
          rw [List.countP_cons]
          by_cases hfa : f a <;> simp [hfa]

theorem forall_getD_zero_iff {s : List ℤ} :
    (∀ x ∈ s, x = 0) ↔ ∀ i < s.length, s.getD i 0 = 0 := by
  constructor
  · intro h i hi
    rw [List.getD_eq_getElem?_getD, List.getElem?_eq_getElem hi]
    exact h _ (List.getElem_mem hi)
  · intro h x hx
    rcases List.mem_iff_getElem.mp hx with ⟨i, hi, rfl⟩
    have := h i hi
    rwa [List.getD_eq_getElem?_getD, List.getElem?_eq_getElem hi] at this

/-! ## Claim C1: the sps subgradient formula -/

/-- The per-row subgradient entry as the specification words it:
`subg[row] = 1 − count of incident columns with reducedCost ≥ 1e-14`.
Modelled from the spec for comparison with the code's computation. -/
def sps_subg_claimed (P : SCP) (rc : List ℚ) : List ℤ :=
  (List.range P.numRow).map fun r =>
    1 - ((P.colsRow r).countP fun c => decide (tol14 ≤ rc.getD c 0))

/-- Instance with one row and one column of cost 1 covering it. -/
def P1 : SCP := ⟨1, 1, [1], [[0]], [[0]]⟩

unseal Rat.add Rat.mul Rat.sub Rat.inv in
/-- Claim C1 (corrected), counterexample: at reduced cost `1` (≥ 1e-14)
the code computes `subg = [1]` (it decrements only for columns with
reduced cost *below* 1e-14), while the spec formula
`1 − #{incident columns with reducedCost ≥ 1e-14}` yields `[0]`. -/
theorem C1_subg_sps_counterexample :
    (compute_subg_vector_sps P1 [(1 : ℚ)]).1 = [1] ∧
    sps_subg_claimed P1 [(1 : ℚ)] = [0] := by decide

/-- Claim C1 (amended): for every well-formed instance and reduced-cost
vector, the strict-variant subgradient entry of each row is
`1 − count of incident columns with reducedCost < 1e-14`, and the
optimal sentinel is returned exactly when that vector is identically
zero. -/
theorem C1_subg_sps_amended (P : SCP) (rc : List ℚ) (hWF : P.WF) :
    (∀ r < P.numRow,
      (compute_subg_vector_sps P rc).1.getD r 0 =
        1 - ((P.colsRow r).countP fun c => decide (rc.getD c 0 < tol14))) ∧
    ((compute_subg_vector_sps P rc).2 = true ↔
      ∀ r < P.numRow, (compute_subg_vector_sps P rc).1.getD r 0 = 0) := by
  constructor
  · intro r hr
    show (subgColsLoop P rc (List.range P.numCol)
      (List.replicate P.numRow 1)).getD r 0 = _
    rw [subgColsLoop_getD P rc _ _ r (by simpa using hr)
      (fun c hc x hx => by
        simp only [List.length_replicate]
        exact hWF.colBound c (List.mem_range.mp hc) x hx)]
    rw [List.getD_eq_getElem?_getD, List.getElem?_replicate]
    simp only [hr, if_true]
    have swap : ∀ c ∈ List.range P.numCol,
        (if rc.getD c 0 < tol14 then ((P.rowsCol c).count r : ℤ) else 0) =
        (if decide (rc.getD c 0 < tol14) then ((P.colsRow r).count c : ℤ) else 0) := by
      intro c hc
      rw [hWF.duality r hr c (List.mem_range.mp hc)]
      simp
    rw [List.map_congr_left swap,
      sum_ind_count _ _ _ (fun x hx => hWF.rowBound r hr x hx)]
    simp
  · have h2 : (compute_subg_vector_sps P rc).2 =
        (compute_subg_vector_sps P rc).1.all (fun x => x == 0) := rfl
    rw [h2, List.all_eq_true]
    simp only [beq_iff_eq]
    rw [forall_getD_zero_iff, subg_sps_length]

unseal Rat.add Rat.mul Rat.sub Rat.inv in
/-- Witness for the amended C1 at a concrete instance. -/
theorem C1_subg_sps_amended_witness :
    (∀ r < P1.numRow,
      (compute_subg_vector_sps P1 [(1 : ℚ)]).1.getD r 0 =
        1 - ((P1.colsRow r).countP fun c =>
          decide (([(1 : ℚ)]).getD c 0 < tol14))) ∧
    ((compute_subg_vector_sps P1 [(1 : ℚ)]).2 = true ↔
      ∀ r < P1.numRow, (compute_subg_vector_sps P1 [(1 : ℚ)]).1.getD r 0 = 0) :=
  C1_subg_sps_amended P1 [(1 : ℚ)] (by decide)

/-! ## Claim C3: the basic subgradient return value -/

theorem clampLoop_char (l : List (ℤ × ℚ)) :
    clampLoop l = (l.map fun pr => if pr.1 < 0 ∧ pr.2 < tol14 then 0 else pr.1,
      l.all fun pr => pr.1 == 0,
      sumSq (l.map fun pr => if pr.1 < 0 ∧ pr.2 < tol14 then 0 else pr.1)) := by
  induction l with
  | nil => rfl
  | cons pr rest ih =>
    obtain ⟨si, di⟩ := pr
    rw [clampLoop, ih]
    by_cases h0 : si = 0
    · subst h0
      simp [sumSq]
    · by_cases hcl : si < 0 ∧ di < tol14
      · simp [h0, hcl, sumSq]
      · simp [h0, hcl, sumSq]
        ring

theorem sumSq_nonneg (s : List ℤ) : 0 ≤ sumSq s :=
  List.sum_nonneg fun x hx => by
    rcases List.mem_map.mp hx with ⟨z, _, rfl⟩
    exact mul_self_nonneg z

/-- Instance with one row covered by two columns of cost 0. -/
def P2 : SCP := ⟨1, 2, [0, 0], [[0, 1]], [[0], [0]]⟩

unseal Rat.add Rat.mul Rat.sub Rat.inv in
/-- Claim C3 (corrected), counterexample: with reduced costs `[0, 0]` and
dual `[0]` on `P2`, the subgradient entry is `1 − 2 = −1` and is clamped
to zero (negative entry, dual below 1e-14), so after clamping the vector
is identically zero — yet the function returns `1`, not the `-1` optimal
sentinel the claim requires (the sentinel test uses the vector *before*
clamping). -/
theorem C3_subg_basic_counterexample :
    (compute_subg_vector_basic P2 [0, 0] [0]).1 = [0] ∧
    (compute_subg_vector_basic P2 [0, 0] [0]).2 = 1 := by decide

/-- Claim C3 (amended): the sign-aware subgradient computation returns
the optimal sentinel iff every entry is zero *before* the clamping step;
the clamped vector zeroes exactly the negative entries whose dual is
below 1e-14; and when not optimal the return value is the squared
Euclidean norm of the clamped vector, substituting 1 if that norm is
zero. -/
theorem all_fst_zip {l1 : List ℤ} {l2 : List ℚ} (h : l1.length = l2.length)
    (p : ℤ → Bool) : ((l1.zip l2).all fun pr => p pr.1) = l1.all p := by
  induction l1 generalizing l2 with
  | nil => simp
  | cons a l ih =>
    cases l2 with
    | nil => simp at h
    | cons b l2 => simp [ih (by simpa using h)]

theorem C3_subg_basic_amended (P : SCP) (rc dual : List ℚ)
    (hd : dual.length = P.numRow) :
    ((compute_subg_vector_basic P rc dual).2 = -1 ↔
      ∀ x ∈ (compute_subg_vector_sps P rc).1, x = 0) ∧
    (compute_subg_vector_basic P rc dual).1 =
      ((compute_subg_vector_sps P rc).1.zip dual).map
        (fun pr => if pr.1 < 0 ∧ pr.2 < tol14 then 0 else pr.1) ∧
    (¬ (∀ x ∈ (compute_subg_vector_sps P rc).1, x = 0) →
      (compute_subg_vector_basic P rc dual).2 =
        if sumSq (compute_subg_vector_basic P rc dual).1 = 0 then 1
        else sumSq (compute_subg_vector_basic P rc dual).1) := by
  have hlen : (compute_subg_vector_sps P rc).1.length = dual.length := by
    rw [subg_sps_length, hd]
  have hall := all_fst_zip hlen fun x => x == 0
  have h1 : (compute_subg_vector_basic P rc dual).1 =
      ((compute_subg_vector_sps P rc).1.zip dual).map
        (fun pr => if pr.1 < 0 ∧ pr.2 < tol14 then 0 else pr.1) := by
    show (clampLoop _).1 = _
    rw [clampLoop_char]
  have h2 : (compute_subg_vector_basic P rc dual).2 =
      if (compute_subg_vector_sps P rc).1.all (fun x => x == 0) then (-1 : ℤ)
      else if sumSq (((compute_subg_vector_sps P rc).1.zip dual).map
          fun pr => if pr.1 < 0 ∧ pr.2 < tol14 then 0 else pr.1) = 0 then 1
        else sumSq (((compute_subg_vector_sps P rc).1.zip dual).map
          fun pr => if pr.1 < 0 ∧ pr.2 < tol14 then 0 else pr.1) := by
    show (if (clampLoop _).2.1 then (-1 : ℤ) else _) = _
    rw [clampLoop_char]
    simp only
    rw [hall]
  refine ⟨?_, h1, ?_⟩
  · rw [h2]
    rcases Bool.eq_false_or_eq_true
      ((compute_subg_vector_sps P rc).1.all fun x => x == 0) with hb | hb
    · simp only [hb, if_true, true_iff]
      intro x hx
      simpa using List.all_eq_true.mp hb x hx
    · simp only [hb, Bool.false_eq_true, if_false]
      refine iff_of_false ?_ ?_
      · intro habs
        by_cases hz : sumSq (((compute_subg_vector_sps P rc).1.zip dual).map
            fun pr => if pr.1 < 0 ∧ pr.2 < tol14 then 0 else pr.1) = 0
        · rw [if_pos hz] at habs
          exact absurd habs (by decide)
        · rw [if_neg hz] at habs
          have hnn := sumSq_nonneg (((compute_subg_vector_sps P rc).1.zip dual).map
            fun pr => if pr.1 < 0 ∧ pr.2 < tol14 then 0 else pr.1)
          omega
      · intro hzz
        have hta : (compute_subg_vector_sps P rc).1.all (fun x => x == 0) = true :=
          List.all_eq_true.mpr fun x hx => by simp [hzz x hx]
        rw [hb] at hta
        exact absurd hta (by decide)
  · intro hopt
    rw [h2, h1]
    have hb : (compute_subg_vector_sps P rc).1.all (fun x => x == 0) = false := by
      rcases Bool.eq_false_or_eq_true
        ((compute_subg_vector_sps P rc).1.all fun x => x == 0) with hbt | hbf
      · exact absurd (fun x hx => by simpa using List.all_eq_true.mp hbt x hx) hopt
      · exact hbf
    rw [hb]
    simp only [Bool.false_eq_true, if_false]

unseal Rat.add Rat.mul Rat.sub Rat.inv in
/-- Witness for the amended C3 at a concrete input. -/
theorem C3_subg_basic_amended_witness :
    ((compute_subg_vector_basic P2 [0, 0] [0]).2 = -1 ↔
      ∀ x ∈ (compute_subg_vector_sps P2 [0, 0]).1, x = 0) ∧
    (compute_subg_vector_basic P2 [0, 0] [0]).1 =
      ((compute_subg_vector_sps P2 [0, 0]).1.zip [0]).map
        (fun pr => if pr.1 < 0 ∧ pr.2 < tol14 then 0 else pr.1) ∧
    (¬ (∀ x ∈ (compute_subg_vector_sps P2 [0, 0]).1, x = 0) →
      (compute_subg_vector_basic P2 [0, 0] [0]).2 =
        if sumSq (compute_subg_vector_basic P2 [0, 0] [0]).1 = 0 then 1
        else sumSq (compute_subg_vector_basic P2 [0, 0] [0]).1) :=
  C3_subg_basic_amended P2 [0, 0] [0] (by decide)

/-! ## Claim C6: the dual initialisation -/

theorem getD_nonneg {l : List ℚ} (h : ∀ x ∈ l, 0 ≤ x) (i : ℕ) :
    0 ≤ l.getD i 0 := by
  rw [List.getD_eq_getElem?_getD]
  cases hl : l[i]? with
  | none => simp
  | some v =>
    simp only [Option.getD_some]
    exact h v (List.getElem?_mem hl)

theorem foldlMin_le_init (f : ℕ → ℚ) (l : List ℕ) (a : ℚ) :
    l.foldl (fun m c => if f c < m then f c else m) a ≤ a := by
  induction l generalizing a with
  | nil => simp
  | cons c rest ih =>
    rw [List.foldl_cons]
    by_cases h : f c < a
    · simp only [h, if_true]
      exact le_trans (ih (f c)) (le_of_lt h)
    · simpa [h] using ih a

theorem foldlMin_le_mem (f : ℕ → ℚ) (l : List ℕ) (a : ℚ) (c : ℕ)
    (hc : c ∈ l) :
    l.foldl (fun m d => if f d < m then f d else m) a ≤ f c := by
  induction l generalizing a with
  | nil => simp at hc
  | cons d rest ih =>
    rw [List.foldl_cons]
    rcases List.mem_cons.mp hc with rfl | hc
    · by_cases h : f c < a
      · simpa [h] using foldlMin_le_init f rest (f c)
      · simp only [h, if_false]
        exact le_trans (foldlMin_le_init f rest a) (le_of_not_lt h)
    · by_cases h : f d < a <;> simp only [h, if_true, if_false] <;> exact ih _ hc

theorem foldlMin_cases (f : ℕ → ℚ) (l : List ℕ) (a : ℚ) :
    l.foldl (fun m c => if f c < m then f c else m) a = a ∨
      ∃ c ∈ l, l.foldl (fun m c => if f c < m then f c else m) a = f c := by
  induction l generalizing a with
  | nil => simp
  | cons d rest ih =>
    rw [List.foldl_cons]
    by_cases h : f d < a
    · simp only [h, if_true]
      rcases ih (f d) with h2 | ⟨c, hc, h2⟩
      · exact Or.inr ⟨d, List.mem_cons_self d rest, h2⟩
      · exact Or.inr ⟨c, List.mem_cons_of_mem _ hc, h2⟩
    · simp only [h, if_false]
      rcases ih a with h2 | ⟨c, hc, h2⟩
      · exact Or.inl h2
      · exact Or.inr ⟨c, List.mem_cons_of_mem _ hc, h2⟩

theorem map_range_getD (n : ℕ) (g : ℕ → ℚ) (r : ℕ) (hr : r < n) :
    ((List.range n).map g).getD r 0 = g r := by
  rw [List.getD_eq_getElem?_getD,
    List.getElem?_eq_getElem (by simpa using hr)]
  simp

theorem sum_map_le_length_mul (l : List ℕ) (g : ℕ → ℚ) (B : ℚ)
    (h : ∀ x ∈ l, g x ≤ B) : (l.map g).sum ≤ (l.length : ℚ) * B := by
  induction l with
  | nil => simp
  | cons a rest ih =>
    simp only [List.map_cons, List.sum_cons, List.length_cons]
    have h1 := h a (List.mem_cons_self a rest)
    have h2 := ih fun x hx => h x (List.mem_cons_of_mem _ hx)
    push_cast
    nlinarith

/-- Entry `r` of the initial dual vector. -/
theorem init_dual_getD (P : SCP) (r : ℕ) (hr : r < P.numRow) :
    (init_dual_vector P).1.getD r 0 =
      (P.colsRow r).foldl (fun m c => if ratio P c < m then ratio P c else m)
        (P.cost.getD ((P.colsRow r).headD 0) 0 : ℚ) :=
  map_range_getD _ _ r hr

/-- Claim C6 (confirmed): for a valid instance (non-negative costs, every
row non-empty), `init_dual_vector` sets each dual entry to the minimum of
`cost[c]/colSize[c]` over the incident columns, computes the reduced
costs of that dual vector, every initial reduced cost is non-negative,
and the returned value `Σ dual[row]` therefore equals the Lagrangian
objective `Σ dual[row] + Σ min(0, reducedCost[col])` of the initial
point. -/
theorem C6_init_dual_vector (P : SCP) (hWF : P.WF)
    (hcost : ∀ x ∈ P.cost, 0 ≤ x)
    (hrows : ∀ r < P.numRow, P.colsRow r ≠ []) :
    (∀ r < P.numRow,
      (init_dual_vector P).1.getD r 0 ∈ (P.colsRow r).map (ratio P) ∧
      ∀ c ∈ P.colsRow r, (init_dual_vector P).1.getD r 0 ≤ ratio P c) ∧
    (init_dual_vector P).2.1 = reducedFromScratch P (init_dual_vector P).1 ∧
    (∀ x ∈ (init_dual_vector P).2.1, 0 ≤ x) ∧
    (init_dual_vector P).2.2 =
      objectiveSpec (init_dual_vector P).1 (init_dual_vector P).2.1 := by
  have hcost0 : ∀ c, (0 : ℚ) ≤ (P.cost.getD c 0 : ℚ) := by
    intro c
    rw [List.getD_eq_getElem?_getD]
    cases hl : P.cost[c]? with
    | none => simp
    | some v =>
      simp only [Option.getD_some]
      exact_mod_cast hcost v (List.getElem?_mem hl)
  -- the per-row minimum characterisation
  have hmin : ∀ r < P.numRow,
      (init_dual_vector P).1.getD r 0 ∈ (P.colsRow r).map (ratio P) ∧
      ∀ c ∈ P.colsRow r, (init_dual_vector P).1.getD r 0 ≤ ratio P c := by
    intro r hr
    have hne := hrows r hr
    set cols := P.colsRow r with hcols
    obtain ⟨c0, rest, hc0⟩ := List.exists_cons_of_ne_nil hne
    have hc0mem : c0 ∈ cols := by rw [hc0]; exact List.mem_cons_self _ _
    have hc0lt : c0 < P.numCol := hWF.rowBound r hr c0 hc0mem
    -- the column c0 is non-empty, so colSize c0 ≥ 1
    have hsz : 1 ≤ P.colSize c0 := by
      have hcount : 0 < (P.rowsCol c0).count r := by
        rw [← hWF.duality r hr c0 hc0lt]
        exact List.count_pos_iff.mpr (by rw [← hcols]; exact hc0mem)
      have := List.count_le_length (l := P.rowsCol c0) (a := r)
      unfold SCP.colSize
      omega
    -- the seed (the raw cost of the first column) dominates its ratio
    have hfirst : ratio P c0 ≤ (P.cost.getD (cols.headD 0) 0 : ℚ) := by
      rw [hc0]
      simp only [List.headD_cons]
      unfold ratio
      apply div_le_self (hcost0 c0)
      exact_mod_cast hsz
    rw [init_dual_getD P r hr, ← hcols]
    constructor
    · rcases foldlMin_cases (ratio P) cols
        (P.cost.getD (cols.headD 0) 0 : ℚ) with he | ⟨c, hc, he⟩
      · have h1 := foldlMin_le_mem (ratio P) cols
          (P.cost.getD (cols.headD 0) 0 : ℚ) c0 hc0mem
        have h2 : ratio P c0 ≤ (cols.foldl
            (fun m c => if ratio P c < m then ratio P c else m)
            (P.cost.getD (cols.headD 0) 0 : ℚ)) := by rw [he]; exact hfirst
        exact List.mem_map.mpr ⟨c0, hc0mem, le_antisymm h2 h1⟩
      · exact List.mem_map.mpr ⟨c, hc, he.symm⟩
    · exact fun c hc => foldlMin_le_mem (ratio P) cols _ c hc
  have hdnn : ∀ i, (0 : ℚ) ≤ (init_dual_vector P).1.getD i 0 := by
    intro i
    by_cases hi : i < P.numRow
    · rcases List.mem_map.mp (hmin i hi).1 with ⟨c, _, he⟩
      rw [← he]
      unfold ratio
      apply div_nonneg (hcost0 c)
      positivity
    · rw [List.getD_eq_getElem?_getD, List.getElem?_eq_none (by
        show (init_dual_vector P).1.length ≤ i
        have : (init_dual_vector P).1.length = P.numRow := by
          simp [init_dual_vector]
        omega)]
      simp
  have hrc : ∀ x ∈ (init_dual_vector P).2.1, 0 ≤ x := by
    intro x hx
    rcases List.mem_map.mp hx with ⟨c, hc, rfl⟩
    show (0 : ℚ) ≤ (P.cost.getD c 0 : ℚ) -
      (List.map (fun r => (init_dual_vector P).1.getD r 0) (P.rowsCol c)).sum
    have hclt : c < P.numCol := List.mem_range.mp hc
    have hbound : ∀ r ∈ P.rowsCol c,
        (init_dual_vector P).1.getD r 0 ≤ ratio P c := by
      intro r hrmem
      have hrlt : r < P.numRow := hWF.colBound c hclt r hrmem
      have hcmem : c ∈ P.colsRow r := by
        have : 0 < (P.colsRow r).count c := by
          rw [hWF.duality r hrlt c hclt]
          exact List.count_pos_iff.mpr hrmem
        exact List.count_pos_iff.mp this
      exact (hmin r hrlt).2 c hcmem
    by_cases hemp : (P.rowsCol c).length = 0
    · rw [List.length_eq_zero.mp hemp]
      simpa using hcost0 c
    · have hsum := sum_map_le_length_mul (P.rowsCol c)
        (fun r => (init_dual_vector P).1.getD r 0) (ratio P c) hbound
      have hprod : ((P.rowsCol c).length : ℚ) * ratio P c =
          (P.cost.getD c 0 : ℚ) := by
        unfold ratio SCP.colSize
        have : ((P.rowsCol c).length : ℚ) ≠ 0 := by
          exact_mod_cast hemp
        field_simp
      rw [hprod] at hsum
      linarith
  refine ⟨hmin, rfl, hrc, ?_⟩
  have hzero : ((init_dual_vector P).2.1.map fun x => min 0 x).sum = 0 :=
    List.sum_eq_zero fun y hy => by
      rcases List.mem_map.mp hy with ⟨x, hx, rfl⟩
      exact min_eq_left (hrc x hx)
  show (init_dual_vector P).2.2 = _
  unfold objectiveSpec
  rw [hzero, add_zero]
  rfl

unseal Rat.add Rat.mul Rat.sub Rat.inv in
/-- Witness for C6 at a concrete well-formed instance. -/
theorem C6_init_dual_vector_witness :
    (∀ r < P2.numRow,
      (init_dual_vector P2).1.getD r 0 ∈ (P2.colsRow r).map (ratio P2) ∧
      ∀ c ∈ P2.colsRow r, (init_dual_vector P2).1.getD r 0 ≤ ratio P2 c) ∧
    (init_dual_vector P2).2.1 = reducedFromScratch P2 (init_dual_vector P2).1 ∧
    (∀ x ∈ (init_dual_vector P2).2.1, 0 ≤ x) ∧
    (init_dual_vector P2).2.2 =
      objectiveSpec (init_dual_vector P2).1 (init_dual_vector P2).2.1 :=
  C6_init_dual_vector P2 (by decide) (by decide) (by decide)

/-- Witness for C9 at a concrete input. -/
theorem C9_first_iteration_eta_infinite_witness :
    1 ≤ sumSq [1, 0] ∧
    (1 : ℝ) ≤ Real.sqrt ((sumSq [1, 0] : ℤ) : ℝ) ∧
    etaAtZero (.fin 1) = .pinf ∧
    acceptAtZero (7 / 2) (1 / 10) (.fin 1) = .ninf ∧
    guardAtZero (18 / 5) (7 / 2) (1 / 10) (.fin 1) = false ∧
    (∀ (P : SCP) (dd : List (ℕ × ℚ)) (pp : ℚ) (fuel : ℕ) (obj : ℚ)
      (cur : List ℚ) (so : ℚ) (rc : List ℚ) (A : ℚ), ¬ obj < A →
      lineSearch P dd pp fuel (1, obj, cur, so, rc) A = (1, obj, cur, so, rc)) :=
  C9_first_iteration_eta_infinite [1, 0] 1 (7 / 2) (1 / 10) (18 / 5)
    ⟨1, by simp, by decide⟩ one_pos


/-! ## Claim C5: incremental reduced costs -/

theorem getD_eq_getElem_of_lt {α : Type _} [Inhabited α] {l : List α} {i : ℕ}
    (h : i < l.length) (d : α) : l.getD i d = l[i] := by
  rw [List.getD_eq_getElem?_getD, List.getElem?_eq_getElem h]
  rfl

theorem list_eq_of_getD {l1 l2 : List ℚ} (hlen : l1.length = l2.length)
    (h : ∀ i < l1.length, l1.getD i 0 = l2.getD i 0) : l1 = l2 := by
  apply List.ext_getElem hlen
  intro i h1 h2
  have := h i h1
  rwa [getD_eq_getElem_of_lt h1, getD_eq_getElem_of_lt h2] at this

theorem propagate_length (cols : List ℕ) (rc : List ℚ) (delta : ℚ) :
    (propagate rc cols delta).length = rc.length := by
  induction cols generalizing rc with
  | nil => rfl
  | cons c rest ih => simp [propagate, ih]

theorem propagate_getD (cols : List ℕ) (rc : List ℚ) (delta : ℚ) (c : ℕ)
    (hc : c < rc.length) :
    (propagate rc cols delta).getD c 0 =
      rc.getD c 0 - delta * ((cols.filter fun x => x < rc.length).count c : ℚ) := by
  induction cols generalizing rc with
  | nil => simp [propagate]
  | cons a rest ih =>
    rw [propagate, ih (rc.set a (rc.getD a 0 - delta)) (by simpa using hc)]
    simp only [List.length_set]
    by_cases ha : a < rc.length
    · by_cases har : a = c
      · subst har
        rw [getD_set_self _ _ _ _ ha]
        simp [List.filter_cons, ha, List.count_cons_self]
        ring
      · rw [getD_set_ne _ _ _ har]
        simp [List.filter_cons, ha, List.count_cons_of_ne (fun h => har h.symm)]
    · rw [List.set_eq_of_length_le (Nat.le_of_not_lt ha)]
      simp [List.filter_cons, ha]

theorem fromScratch_length (P : SCP) (d : List ℚ) :
    (reducedFromScratch P d).length = P.numCol := by
  simp [reducedFromScratch]

theorem fromScratch_getD (P : SCP) (d : List ℚ) (c : ℕ) (hc : c < P.numCol) :
    (reducedFromScratch P d).getD c 0 =
      (P.cost.getD c 0 : ℚ) - ((P.rowsCol c).map fun r => d.getD r 0).sum := by
  unfold reducedFromScratch
  exact map_range_getD _ _ c hc

theorem sum_map_getD_set (l : List ℕ) (d : List ℚ) (r : ℕ) (v : ℚ)
    (hr : r < d.length) :
    (l.map fun x => (d.set r v).getD x 0).sum =
      (l.map fun x => d.getD x 0).sum + (v - d.getD r 0) * (l.count r : ℚ) := by
  induction l with
  | nil => simp
  | cons a rest ih =>
    simp only [List.map_cons, List.sum_cons]
    rw [ih]
    by_cases har : a = r
    · subst har
      rw [getD_set_self _ _ _ _ hr, List.count_cons_self]
      push_cast
      ring
    · rw [getD_set_ne _ _ _ (fun h => har h.symm),
        List.count_cons_of_ne (fun h => absurd h.symm har)]
      ring

/-- Core exactness of the incremental update: propagating a dual change
`delta` at row `r` through the row's incident columns turns the
from-scratch reduced costs of `d` into the from-scratch reduced costs of
the updated dual. -/
theorem propagate_fromScratch (P : SCP) (hWF : P.WF) (d rc : List ℚ)
    (r : ℕ) (hr : r < P.numRow) (hd : d.length = P.numRow)
    (hrc : rc = reducedFromScratch P d) (delta : ℚ) :
    propagate rc (P.colsRow r) delta =
      reducedFromScratch P (d.set r (d.getD r 0 + delta)) := by
  have hrclen : rc.length = P.numCol := by rw [hrc, fromScratch_length]
  apply list_eq_of_getD
  · rw [propagate_length, hrclen, fromScratch_length]
  · intro c hc
    rw [propagate_length, hrclen] at hc
    rw [propagate_getD _ _ _ _ (by rwa [hrclen])]
    have hfil : (P.colsRow r).filter (fun x => x < rc.length) = P.colsRow r :=
      List.filter_eq_self.mpr fun x hx => by
        simp only [hrclen, decide_eq_true_eq]
        exact hWF.rowBound r hr x hx
    rw [hfil, fromScratch_getD _ _ _ hc,
      sum_map_getD_set _ _ _ _ (by rwa [hd]),
      hrc, fromScratch_getD _ _ _ hc, hWF.duality r hr c hc]
    ring

/-- Taking one more element after a `set` at the boundary. -/
theorem take_succ_set (d : List ℚ) (r : ℕ) (v : ℚ) (h : r < d.length) :
    (d.set r v).take (r + 1) = d.take r ++ [v] := by
  induction d generalizing r with
  | nil => simp at h
  | cons a rest ih =>
    cases r with
    | zero => simp
    | succ r =>
      simp only [List.set_cons_succ, List.take_succ_cons, List.cons_append]
      rw [ih r (by simpa using h)]

theorem take_succ_getD (d : List ℚ) (r : ℕ) (h : r < d.length) :
    d.take (r + 1) = d.take r ++ [d.getD r 0] := by
  rw [List.take_succ, getD_eq_getElem_of_lt h, List.getElem?_eq_getElem h]
  rfl

/-- The reduced costs threaded through the tentative momentum step stay
equal to the from-scratch reduced costs of the dual vector being built:
prefix rows (below `r0`) keep their old values, the processed suffix is
the freshly built list. -/
theorem tentLoop_consistent (P : SCP) (hWF : P.WF) (a : ℚ) :
    ∀ (pairs : List ((ℚ × ℚ) × ℤ)) (r0 : ℕ) (d rc : List ℚ),
      d.length = P.numRow →
      r0 + pairs.length = P.numRow →
      (∀ j < pairs.length, (pairs.getD j default).1.1 = d.getD (r0 + j) 0) →
      rc = reducedFromScratch P d →
      (tentLoop P a pairs r0 rc).2.2.1 =
        reducedFromScratch P (d.take r0 ++ (tentLoop P a pairs r0 rc).2.1)
  | [], r0, d, rc, hd, hlen, _, hrc => by
    simp only [tentLoop, List.append_nil]
    rw [hrc]
    congr 1
    have : r0 = d.length := by simp only [List.length_nil] at hlen; omega
    rw [this, List.take_length]
  | ((di, mi), gi) :: rest, r0, d, rc, hd, hlen, halign, hrc => by
    have hr0 : r0 < P.numRow := by
      simp only [List.length_cons] at hlen
      omega
    have hdi : di = d.getD r0 0 := by
      have := halign 0 (by simp)
      simpa using this
    rw [tentLoop]
    by_cases hdv :
        (if di + (a * (gi : ℚ) + 7 / 10 * mi) < 0 then 0
          else di + (a * (gi : ℚ) + 7 / 10 * mi)) - di < -ztol ∨
        ztol < (if di + (a * (gi : ℚ) + 7 / 10 * mi) < 0 then 0
          else di + (a * (gi : ℚ) + 7 / 10 * mi)) - di
    · simp only [hdv, if_true]
      set dv := (if di + (a * (gi : ℚ) + 7 / 10 * mi) < 0 then 0
        else di + (a * (gi : ℚ) + 7 / 10 * mi)) - di with hdvdef
      have hprop := propagate_fromScratch P hWF d rc r0 hr0 hd hrc dv
      have hd2 : (d.set r0 (d.getD r0 0 + dv)).length = P.numRow := by
        simpa using hd
      have ih := tentLoop_consistent P hWF a rest (r0 + 1)
        (d.set r0 (d.getD r0 0 + dv)) (propagate rc (P.colsRow r0) dv)
        hd2 (by simp only [List.length_cons] at hlen; omega)
        (fun j hj => by
          have := halign (j + 1) (by simp only [List.length_cons]; omega)
          simp only [List.getD_cons_succ] at this
          rw [this, getD_set_ne _ _ _ (by omega)]
          congr 1
          omega)
        hprop
      rw [ih]
      congr 1
      rw [take_succ_set _ _ _ (by omega), ← hdi]
      simp
    · simp only [hdv, if_false]
      have ih := tentLoop_consistent P hWF a rest (r0 + 1) d rc hd
        (by simp only [List.length_cons] at hlen; omega)
        (fun j hj => by
          have := halign (j + 1) (by simp only [List.length_cons]; omega)
          simp only [List.getD_cons_succ] at this
          rw [this]
          congr 1
          omega)
        hrc
      rw [ih]
      congr 1
      rw [take_succ_getD _ _ (by omega), ← hdi]
      simp

/-! ## Claim C2: the result stored after optimal termination -/

/-- Failing instance for claim C2: rows r0, r1; columns c0 = {r0} of
cost 3, c1 = {r0, r1} of cost 5, c2 = {r1} of cost 1. -/
def P3 : SCP := ⟨2, 3, [3, 5, 1], [[0, 1], [1, 2]], [[0], [0, 1], [1]]⟩

unseal Rat.add Rat.mul Rat.sub Rat.inv in
/-- Claim C2 (code bug): on instance `P3` with `max_itr = 300` (and any
non-negative tolerance sequence, hence in particular the one the C code
computes), the SPS driver terminates by optimality at iteration 3, right
after that iterate was recorded as a new best via the buffer swap.  The
final optimal iterate is `[3.2423, 1]` (its reduced costs are the
driver's current ones and yield the zero subgradient), and the returned
objective is its objective 4; but the cleanup `best_dual = curr_dual`
copies the *stale* buffer `[2.989, 1]` — the iterate of two iterations
earlier, whose objective is 3.989 — into the result store, contradicting
the claim (and the code's own contract of returning the best/final dual
vector together with its objective). -/
theorem C2_sps_stale_buffer_on_optimal (eta : ℕ → ℚ)
    (heta : ∀ k, 0 ≤ eta k) :
    spectral_projected_subgradient P3 eta 300 [123, 456] =
      (4, [2989 / 1000, 1]) ∧
    (spsGo P3 eta 300 (spsInit P3 [123, 456])).isOpt = true ∧
    (spsGo P3 eta 300 (spsInit P3 [123, 456])).bstC = [32423 / 10000, 1] ∧
    (spsGo P3 eta 300 (spsInit P3 [123, 456])).rc =
      reducedFromScratch P3 [32423 / 10000, 1] ∧
    (compute_subg_vector_sps P3 (spsGo P3 eta 300 (spsInit P3 [123, 456])).rc).2 = true ∧
    ([2989 / 1000, 1] : List ℚ) ≠ [32423 / 10000, 1] ∧
    objectiveSpec [2989 / 1000, 1]
      (reducedFromScratch P3 [2989 / 1000, 1]) = 3989 / 1000 := by
  have h0 : (spsInit P3 [123, 456]).isOpt = false := by decide
  have h1 : (spsIter P3 0 (spsInit P3 [123, 456])).isOpt = false := by decide
  have h2 : (spsIter P3 0 (spsIter P3 0 (spsInit P3 [123, 456]))).isOpt = false := by decide
  have h3 : (spsIter P3 0 (spsIter P3 0 (spsIter P3 0 (spsInit P3 [123, 456])))).isOpt = false := by decide
  have h4 : (spsIter P3 0 (spsIter P3 0 (spsIter P3 0 (spsIter P3 0 (spsInit P3 [123, 456]))))).isOpt = true := by decide
  have E1 : spsGo P3 eta 300 (spsInit P3 [123, 456]) = spsGo P3 eta 299 (spsIter P3 0 (spsInit P3 [123, 456])) := by
    rw [show (300 : ℕ) = 299 + 1 from rfl, spsGo_step P3 eta 299 _ h0,
      spsIter_eta_indep P3 (spsInit P3 [123, 456]) (eta (spsInit P3 [123, 456]).itr) (heta _) (by decide)]
  have E2 : spsGo P3 eta 299 (spsIter P3 0 (spsInit P3 [123, 456])) = spsGo P3 eta 298 (spsIter P3 0 (spsIter P3 0 (spsInit P3 [123, 456]))) := by
    rw [show (299 : ℕ) = 298 + 1 from rfl, spsGo_step P3 eta 298 _ h1,
      spsIter_eta_indep P3 (spsIter P3 0 (spsInit P3 [123, 456])) (eta (spsIter P3 0 (spsInit P3 [123, 456])).itr) (heta _) (by decide)]
  have E3 : spsGo P3 eta 298 (spsIter P3 0 (spsIter P3 0 (spsInit P3 [123, 456]))) = spsGo P3 eta 297 (spsIter P3 0 (spsIter P3 0 (spsIter P3 0 (spsInit P3 [123, 456])))) := by
    rw [show (298 : ℕ) = 297 + 1 from rfl, spsGo_step P3 eta 297 _ h2,
      spsIter_eta_indep P3 (spsIter P3 0 (spsIter P3 0 (spsInit P3 [123, 456]))) (eta (spsIter P3 0 (spsIter P3 0 (spsInit P3 [123, 456]))).itr) (heta _) (by decide)]
  have E4 : spsGo P3 eta 297 (spsIter P3 0 (spsIter P3 0 (spsIter P3 0 (spsInit P3 [123, 456])))) = spsGo P3 eta 296 (spsIter P3 0 (spsIter P3 0 (spsIter P3 0 (spsIter P3 0 (spsInit P3 [123, 456]))))) := by
    rw [show (297 : ℕ) = 296 + 1 from rfl, spsGo_step P3 eta 296 _ h3,
      spsIter_eta_indep P3 (spsIter P3 0 (spsIter P3 0 (spsIter P3 0 (spsInit P3 [123, 456])))) (eta (spsIter P3 0 (spsIter P3 0 (spsIter P3 0 (spsInit P3 [123, 456])))).itr) (heta _) (by decide)]
  have ER : spsGo P3 eta 300 (spsInit P3 [123, 456]) = spsIter P3 0 (spsIter P3 0 (spsIter P3 0 (spsIter P3 0 (spsInit P3 [123, 456])))) := by
    rw [E1, E2, E3, E4, spsGo_opt P3 eta 296 _ h4]
  refine ⟨?_, ?_, ?_, ?_, ?_, by decide, by decide⟩
  · show (let st0 := spsInit P3 [123, 456]
      let stF := spsGo P3 eta 300 st0
      if stF.isOpt then (stF.currObj, stF.curC) else (stF.bestObj, stF.bstC)) =
        (4, [2989 / 1000, 1])
    simp only
    rw [ER]
    decide
  · rw [ER]; decide
  · rw [ER]; decide
  · rw [ER]; decide
  · rw [ER]; decide

unseal Rat.add Rat.mul Rat.sub Rat.inv in
/-- Witness for C2 at the concrete tolerance sequence zero. -/
theorem C2_sps_stale_buffer_on_optimal_witness :
    spectral_projected_subgradient P3 (fun _ => 0) 300 [123, 456] =
      (4, [2989 / 1000, 1]) ∧
    (spsGo P3 (fun _ => 0) 300 (spsInit P3 [123, 456])).isOpt = true ∧
    (spsGo P3 (fun _ => 0) 300 (spsInit P3 [123, 456])).bstC = [32423 / 10000, 1] ∧
    (spsGo P3 (fun _ => 0) 300 (spsInit P3 [123, 456])).rc =
      reducedFromScratch P3 [32423 / 10000, 1] ∧
    (compute_subg_vector_sps P3
      (spsGo P3 (fun _ => 0) 300 (spsInit P3 [123, 456])).rc).2 = true ∧
    ([2989 / 1000, 1] : List ℚ) ≠ [32423 / 10000, 1] ∧
    objectiveSpec [2989 / 1000, 1]
      (reducedFromScratch P3 [2989 / 1000, 1]) = 3989 / 1000 :=
  C2_sps_stale_buffer_on_optimal (fun _ => 0) (fun _ => le_refl 0)

/-- The rollback loop of the line search keeps the reduced costs equal to
the from-scratch reduced costs of the dual it maintains (each applied
rollback propagates its exact delta; a skipped rollback changes neither
the dual nor the reduced costs). -/
theorem rollbackPass_consistent (P : SCP) (hWF : P.WF) (tau : ℚ) :
    ∀ (dd : List (ℕ × ℚ)) (cur : List ℚ) (so : ℚ) (rc : List ℚ),
      (∀ pr ∈ dd, pr.1 < P.numRow) →
      cur.length = P.numRow →
      rc = reducedFromScratch P cur →
      (rollbackPass P tau dd (cur, so, rc)).1.length = P.numRow ∧
      (rollbackPass P tau dd (cur, so, rc)).2.2 =
        reducedFromScratch P (rollbackPass P tau dd (cur, so, rc)).1
  | [], cur, so, rc, _, hlen, hrc => by
    exact ⟨hlen, hrc⟩
  | (r, dv) :: rest, cur, so, rc, hdd, hlen, hrc => by
    have hr : r < P.numRow := hdd (r, dv) (List.mem_cons_self _ _)
    rw [rollbackPass]
    by_cases hv : tau * dv < -ztol ∨ ztol < tau * dv
    · simp only [hv, if_true]
      have hprop := propagate_fromScratch P hWF cur rc r hr hlen hrc (-(tau * dv))
      have harith : cur.getD r 0 + -(tau * dv) = cur.getD r 0 - tau * dv := by
        ring
      rw [harith] at hprop
      exact rollbackPass_consistent P hWF tau rest
        (cur.set r (cur.getD r 0 - tau * dv)) (so - tau * dv)
        (propagate rc (P.colsRow r) (-(tau * dv)))
        (fun pr hpr => hdd pr (List.mem_cons_of_mem _ hpr))
        (by simpa using hlen) hprop
    · simp only [hv, if_false]
      exact rollbackPass_consistent P hWF tau rest cur so rc
        (fun pr hpr => hdd pr (List.mem_cons_of_mem _ hpr)) hlen hrc

/-- The whole non-monotone line search preserves the equality between the
threaded reduced costs and the from-scratch reduced costs of the dual it
returns. -/
theorem lineSearch_consistent (P : SCP) (hWF : P.WF) (dd : List (ℕ × ℚ))
    (p : ℚ) (hdd : ∀ pr ∈ dd, pr.1 < P.numRow) :
    ∀ (fuel : ℕ) (tau obj : ℚ) (cur : List ℚ) (so : ℚ) (rc : List ℚ)
      (accept : ℚ),
      cur.length = P.numRow →
      rc = reducedFromScratch P cur →
      (lineSearch P dd p fuel (tau, obj, cur, so, rc) accept).2.2.1.length
          = P.numRow ∧
      (lineSearch P dd p fuel (tau, obj, cur, so, rc) accept).2.2.2.2 =
        reducedFromScratch P
          (lineSearch P dd p fuel (tau, obj, cur, so, rc) accept).2.2.1
  | 0, tau, obj, cur, so, rc, accept, hlen, hrc => ⟨hlen, hrc⟩
  | fuel + 1, tau, obj, cur, so, rc, accept, hlen, hrc => by
    rw [lineSearch]
    by_cases hlt : obj < accept
    · simp only [hlt, if_true]
      obtain ⟨h1, h2⟩ :=
        rollbackPass_consistent P hWF (tau / 2) dd cur so rc hdd hlen hrc
      exact lineSearch_consistent P hWF dd p hdd fuel (tau / 2) _ _ _ _ _ h1 h2
    · simp only [hlt, if_false]
      exact ⟨hlen, hrc⟩

/-- Absence of skipped-but-applied updates in one pass of the basic
driver's row loop: every projection-corrected delta is either exactly zero
or large enough (beyond `ztol`) to be propagated.  When this fails the
basic driver applies a dual change without updating the reduced costs. -/
def basicTinyFree (stepQ : ℚ) : List (ℤ × ℚ) → Bool
  | [] => true
  | (si, di) :: rest =>
    (let value := stepQ * (si : ℚ)
     let nd0 := di + value
     let value2 := if nd0 < 0 then value - nd0 else value
     decide (value2 = 0 ∨ value2 < -ztol ∨ ztol < value2)) &&
      basicTinyFree stepQ rest

/-- Under the tiny-free condition, the basic driver's row loop keeps the
reduced costs equal to the from-scratch reduced costs of the dual it
builds (prefix rows keep their old values). -/
theorem basicRowLoop_consistent (P : SCP) (hWF : P.WF) (stepQ : ℚ) :
    ∀ (pairs : List (ℤ × ℚ)) (r0 : ℕ) (d rc : List ℚ),
      d.length = P.numRow →
      r0 + pairs.length = P.numRow →
      (∀ j < pairs.length, (pairs.getD j default).2 = d.getD (r0 + j) 0) →
      rc = reducedFromScratch P d →
      basicTinyFree stepQ pairs = true →
      (basicRowLoop P stepQ pairs r0 rc).2.2 =
        reducedFromScratch P (d.take r0 ++ (basicRowLoop P stepQ pairs r0 rc).1)
  | [], r0, d, rc, hd, hlen, _, hrc, _ => by
    simp only [basicRowLoop, List.append_nil]
    rw [hrc]
    congr 1
    have : r0 = d.length := by simp only [List.length_nil] at hlen; omega
    rw [this, List.take_length]
  | (si, di) :: rest, r0, d, rc, hd, hlen, halign, hrc, htf => by
    have hr0 : r0 < P.numRow := by
      simp only [List.length_cons] at hlen
      omega
    have hdi : di = d.getD r0 0 := by
      have := halign 0 (by simp)
      simpa using this
    have htf2 : basicTinyFree stepQ rest = true := by
      have := htf
      simp only [basicTinyFree, Bool.and_eq_true] at this
      exact this.2
    have htfh : (if di + stepQ * (si : ℚ) < 0 then
        stepQ * (si : ℚ) - (di + stepQ * (si : ℚ)) else stepQ * (si : ℚ)) = 0 ∨
        (if di + stepQ * (si : ℚ) < 0 then
        stepQ * (si : ℚ) - (di + stepQ * (si : ℚ)) else stepQ * (si : ℚ)) < -ztol ∨
        ztol < (if di + stepQ * (si : ℚ) < 0 then
        stepQ * (si : ℚ) - (di + stepQ * (si : ℚ)) else stepQ * (si : ℚ)) := by
      have := htf
      simp only [basicTinyFree, Bool.and_eq_true, decide_eq_true_eq] at this
      exact this.1
    rw [basicRowLoop]
    by_cases hprop : (if di + stepQ * (si : ℚ) < 0 then
        stepQ * (si : ℚ) - (di + stepQ * (si : ℚ)) else stepQ * (si : ℚ)) < -ztol ∨
        ztol < (if di + stepQ * (si : ℚ) < 0 then
        stepQ * (si : ℚ) - (di + stepQ * (si : ℚ)) else stepQ * (si : ℚ))
    · simp only [hprop, if_true]
      set v2 := (if di + stepQ * (si : ℚ) < 0 then
        stepQ * (si : ℚ) - (di + stepQ * (si : ℚ)) else stepQ * (si : ℚ))
        with hv2def
      set nd := (if di + stepQ * (si : ℚ) < 0 then 0 else di + stepQ * (si : ℚ))
        with hnddef
      have hnd : d.getD r0 0 + v2 = nd := by
        by_cases hneg : di + stepQ * (si : ℚ) < 0
        · rw [hv2def, hnddef, if_pos hneg, if_pos hneg, ← hdi]
          ring
        · rw [hv2def, hnddef, if_neg hneg, if_neg hneg, ← hdi]
      have hprop2 := propagate_fromScratch P hWF d rc r0 hr0 hd hrc v2
      rw [hnd] at hprop2
      have hd2 : (d.set r0 nd).length = P.numRow := by simpa using hd
      have ih := basicRowLoop_consistent P hWF stepQ rest (r0 + 1)
        (d.set r0 nd) (propagate rc (P.colsRow r0) v2) hd2
        (by simp only [List.length_cons] at hlen; omega)
        (fun j hj => by
          have := halign (j + 1) (by simp only [List.length_cons]; omega)
          simp only [List.getD_cons_succ] at this
          rw [this, getD_set_ne _ _ _ (by omega)]
          congr 1
          omega)
        hprop2 htf2
      rw [ih]
      congr 1
      rw [take_succ_set _ _ _ (by omega)]
      simp
    · simp only [hprop, if_false]
      have hnd2 : (if di + stepQ * (si : ℚ) < 0 then 0
          else di + stepQ * (si : ℚ)) = d.getD r0 0 := by
        rcases htfh with h0 | h | h
        · by_cases hneg : di + stepQ * (si : ℚ) < 0
          · rw [if_pos hneg]
            rw [if_pos hneg] at h0
            rw [← hdi]
            linarith
          · rw [if_neg hneg]
            rw [if_neg hneg] at h0
            rw [← hdi]
            linarith
        · exact absurd (Or.inl h) hprop
        · exact absurd (Or.inr h) hprop
      have ih := basicRowLoop_consistent P hWF stepQ rest (r0 + 1) d rc hd
        (by simp only [List.length_cons] at hlen; omega)
        (fun j hj => by
          have := halign (j + 1) (by simp only [List.length_cons]; omega)
          simp only [List.getD_cons_succ] at this
          rw [this]
          congr 1
          omega)
        hrc htf2
      rw [ih]
      congr 1
      rw [take_succ_getD _ _ (by omega), hnd2]
      simp

theorem zip_zip_fst_getD (d m : List ℚ) (g : List ℤ) (j : ℕ)
    (hj : j < ((d.zip m).zip g).length) :
    (((d.zip m).zip g).getD j default).1.1 = d.getD j 0 := by
  have hj2 : j < d.length := by
    simp only [List.length_zip, lt_min_iff] at hj
    exact hj.1.1
  have hj1 : j < ((d.zip m).zip g).length := hj
  rw [getD_eq_getElem_of_lt hj1, getD_eq_getElem_of_lt hj2]
  simp [List.getElem_zip]

theorem zip_snd_getD (g : List ℤ) (d : List ℚ) (j : ℕ)
    (hj : j < (g.zip d).length) :
    ((g.zip d).getD j default).2 = d.getD j 0 := by
  have hj2 : j < d.length := by
    simp only [List.length_zip, lt_min_iff] at hj
    exact hj.2
  rw [getD_eq_getElem_of_lt hj, getD_eq_getElem_of_lt hj2]
  simp [List.getElem_zip]

theorem tentLoop_cur_length (P : SCP) (a : ℚ) :
    ∀ (pairs : List ((ℚ × ℚ) × ℤ)) (r0 : ℕ) (rc : List ℚ),
      (tentLoop P a pairs r0 rc).2.1.length = pairs.length
  | [], _, _ => rfl
  | ((di, mi), gi) :: rest, r0, rc => by
    have ih := tentLoop_cur_length P a rest (r0 + 1)
    rw [tentLoop]
    split <;> split <;> simp [ih]

theorem dd_bounds_aux (r0 n : ℕ) (x : ℚ) (l : List (ℕ × ℚ))
    (hl : ∀ pr ∈ l, r0 + 1 ≤ pr.1 ∧ pr.1 < r0 + 1 + n) :
    ∀ pr ∈ (r0, x) :: l, r0 ≤ pr.1 ∧ pr.1 < r0 + (n + 1) := by
  intro pr hpr
  rcases List.mem_cons.mp hpr with h | h
  · refine ⟨?_, ?_⟩
    · rw [h]
    · rw [h]
      show r0 < r0 + (n + 1)
      omega
  · obtain ⟨h1, h2⟩ := hl pr h
    exact ⟨by omega, by omega⟩

/-- Rows recorded in the `dd` list of the tentative step lie in the range
of rows the loop processed. -/
theorem tentLoop_dd_bounds (P : SCP) (a : ℚ) :
    ∀ (pairs : List ((ℚ × ℚ) × ℤ)) (r0 : ℕ) (rc : List ℚ),
      ∀ pr ∈ (tentLoop P a pairs r0 rc).2.2.2.1,
        r0 ≤ pr.1 ∧ pr.1 < r0 + pairs.length
  | [], _, _ => by simp [tentLoop]
  | ((di, mi), gi) :: rest, r0, rc => by
    have ih := tentLoop_dd_bounds P a rest (r0 + 1)
    rw [tentLoop]
    simp only [List.length_cons]
    split <;> split <;> (try dsimp only) <;>
      first
        | exact dd_bounds_aux _ _ _ _ (ih _)
        | (intro pr hpr
           obtain ⟨h1, h2⟩ := ih _ pr hpr
           exact ⟨by omega, by omega⟩)

/-- Whatever the line search returns, the post-processing step stores its
reduced costs unchanged, and the dual vector `old_dual` points at after
the best-swap bookkeeping is exactly the line search's dual. -/
theorem spsPost_fields (P : SCP) (st : SpsSt) (l : ℚ × ℚ × List ℚ × ℚ × List ℚ) :
    (spsPost P st l).rc = l.2.2.2.2 ∧ (spsPost P st l).oldDual = l.2.2.1 := by
  by_cases himp : st.bestObj < l.2.1 <;>
    by_cases hsg : (compute_subg_vector_sps P l.2.2.2.2).2 = true <;>
      simp [spsPost, SpsSt.oldDual, himp, hsg]

/-- A full SPS iteration (tentative step, line search with its rollbacks,
best swap, window update) keeps the carried reduced costs equal to the
from-scratch reduced costs of the dual vector the next iteration will
read. -/
theorem spsIter_consistent (P : SCP) (hWF : P.WF) (etaK : ℚ) (st : SpsSt)
    (hd : st.oldDual.length = P.numRow) (hm : st.momentum.length = P.numRow)
    (hg : st.prevSubg.length = P.numRow)
    (hrc : st.rc = reducedFromScratch P st.oldDual) :
    (spsIter P etaK st).rc = reducedFromScratch P (spsIter P etaK st).oldDual := by
  have hplen : ((st.oldDual.zip st.momentum).zip st.prevSubg).length = P.numRow := by
    simp only [List.length_zip]
    omega
  have htent : (spsTent P st).2.2.1 = reducedFromScratch P (spsTent P st).2.1 := by
    have := tentLoop_consistent P hWF st.alpha
      ((st.oldDual.zip st.momentum).zip st.prevSubg) 0 st.oldDual st.rc hd
      (by simpa using hplen)
      (fun j hj => by simpa using zip_zip_fst_getD st.oldDual st.momentum st.prevSubg j hj)
      hrc
    simpa [spsTent] using this
  have hddb : ∀ pr ∈ (spsTent P st).2.2.2.1, pr.1 < P.numRow := by
    intro pr hpr
    have := tentLoop_dd_bounds P st.alpha
      ((st.oldDual.zip st.momentum).zip st.prevSubg) 0 st.rc pr
      (by simpa [spsTent] using hpr)
    omega
  have hclen : (spsTent P st).2.1.length = P.numRow := by
    have := tentLoop_cur_length P st.alpha
      ((st.oldDual.zip st.momentum).zip st.prevSubg) 0 st.rc
    simpa [spsTent, hplen] using this
  have hls := lineSearch_consistent P hWF (spsTent P st).2.2.2.1 (spsProd P st)
    hddb lsFuel 1 (spsTentObj P st) (spsTent P st).2.1
    (spsTent P st).2.2.2.2.2 (spsTent P st).2.2.1 (spsAccept P st - etaK)
    hclen htent
  obtain ⟨hr, ho⟩ := spsPost_fields P st (lineSearch P (spsTent P st).2.2.2.1 (spsProd P st)
    lsFuel (1, spsTentObj P st, (spsTent P st).2.1, (spsTent P st).2.2.2.2.2,
      (spsTent P st).2.2.1) (spsAccept P st - etaK))
  show (spsPost P st _).rc = reducedFromScratch P (spsPost P st _).oldDual
  rw [hr, ho]
  exact hls.2

/-- A one-row, two-column instance (both columns cost 1, covering the
single row) on which the basic driver's skipped tiny propagations
desynchronise the reduced costs. -/
def Posc : SCP := ⟨1, 2, [1, 1], [[0, 1]], [[0], [0]]⟩

unseal Rat.add Rat.mul Rat.sub Rat.inv in
/-- Claim C5, counterexample.  Running `basic_subgradient` on the
well-formed instance `Posc` with upper bound 1 for 420 iterations reaches
an objective evaluation at which the incrementally maintained reduced
costs differ from the from-scratch reduced costs of the current dual
vector (the per-iteration conjunction of checks is `false`): around
iteration 407 a projection-corrected delta falls inside `(0, ZERO_TOL]`,
so the dual entry changes but no propagation is performed. -/
theorem C5_rc_consistency_counterexample :
    Posc.WF ∧ basicRunConsistent Posc 1 420 [] = false :=
  ⟨by decide, by rfl⟩

/-- Claim C5 (amended).  Over exact arithmetic the incremental reduced
costs are exact throughout the SPS driver: (1) propagating a dual change
`delta` at a row turns the from-scratch reduced costs of the old dual into
those of the updated dual; (2) the tentative momentum step, (3) every
rollback pass, (4) the whole non-monotone line search, and (5) a complete
SPS iteration each keep the threaded reduced costs equal to the
from-scratch reduced costs of the dual they produce.  (6) In the Basic
driver the same holds for the per-row update loop only under the
additional tiny-free condition that every projection-corrected delta is
zero or exceeds `ZERO_TOL` in magnitude — without it the driver skips the
propagation but still changes the dual (see the counterexample). -/
theorem C5_rc_incremental_exactness :
    (∀ (P : SCP), P.WF → ∀ (d rc : List ℚ) (r : ℕ), r < P.numRow →
      d.length = P.numRow → rc = reducedFromScratch P d → ∀ delta : ℚ,
      propagate rc (P.colsRow r) delta =
        reducedFromScratch P (d.set r (d.getD r 0 + delta))) ∧
    (∀ (P : SCP), P.WF → ∀ (a : ℚ) (d m : List ℚ) (g : List ℤ) (rc : List ℚ),
      d.length = P.numRow → m.length = P.numRow → g.length = P.numRow →
      rc = reducedFromScratch P d →
      (tentLoop P a ((d.zip m).zip g) 0 rc).2.2.1 =
        reducedFromScratch P (tentLoop P a ((d.zip m).zip g) 0 rc).2.1) ∧
    (∀ (P : SCP), P.WF → ∀ (tau : ℚ) (dd : List (ℕ × ℚ)) (cur : List ℚ)
      (so : ℚ) (rc : List ℚ), (∀ pr ∈ dd, pr.1 < P.numRow) →
      cur.length = P.numRow → rc = reducedFromScratch P cur →
      (rollbackPass P tau dd (cur, so, rc)).2.2 =
        reducedFromScratch P (rollbackPass P tau dd (cur, so, rc)).1) ∧
    (∀ (P : SCP), P.WF → ∀ (dd : List (ℕ × ℚ)) (p : ℚ) (fuel : ℕ)
      (tau obj : ℚ) (cur : List ℚ) (so : ℚ) (rc : List ℚ) (accept : ℚ),
      (∀ pr ∈ dd, pr.1 < P.numRow) →
      cur.length = P.numRow → rc = reducedFromScratch P cur →
      (lineSearch P dd p fuel (tau, obj, cur, so, rc) accept).2.2.2.2 =
        reducedFromScratch P
          (lineSearch P dd p fuel (tau, obj, cur, so, rc) accept).2.2.1) ∧
    (∀ (P : SCP), P.WF → ∀ (etaK : ℚ) (st : SpsSt),
      st.oldDual.length = P.numRow → st.momentum.length = P.numRow →
      st.prevSubg.length = P.numRow →
      st.rc = reducedFromScratch P st.oldDual →
      (spsIter P etaK st).rc =
        reducedFromScratch P (spsIter P etaK st).oldDual) ∧
    (∀ (P : SCP), P.WF → ∀ (stepQ : ℚ) (g : List ℤ) (d rc : List ℚ),
      d.length = P.numRow → g.length = P.numRow →
      rc = reducedFromScratch P d →
      basicTinyFree stepQ (g.zip d) = true →
      (basicRowLoop P stepQ (g.zip d) 0 rc).2.2 =
        reducedFromScratch P (basicRowLoop P stepQ (g.zip d) 0 rc).1) := by
  refine ⟨?_, ?_, ?_, ?_, ?_, ?_⟩
  · intro P hWF d rc r hr hd hrc delta
    exact propagate_fromScratch P hWF d rc r hr hd hrc delta
  · intro P hWF a d m g rc hd hm hg hrc
    have hplen : ((d.zip m).zip g).length = P.numRow := by
      simp only [List.length_zip]
      omega
    have := tentLoop_consistent P hWF a ((d.zip m).zip g) 0 d rc hd
      (by simpa using hplen)
      (fun j hj => by simpa using zip_zip_fst_getD d m g j hj)
      hrc
    simpa using this
  · intro P hWF tau dd cur so rc hdd hlen hrc
    exact (rollbackPass_consistent P hWF tau dd cur so rc hdd hlen hrc).2
  · intro P hWF dd p fuel tau obj cur so rc accept hdd hlen hrc
    exact (lineSearch_consistent P hWF dd p hdd fuel tau obj cur so rc accept
      hlen hrc).2
  · intro P hWF etaK st hd hm hg hrc
    exact spsIter_consistent P hWF etaK st hd hm hg hrc
  · intro P hWF stepQ g d rc hd hg hrc htf
    have hplen : (g.zip d).length = P.numRow := by
      simp only [List.length_zip]
      omega
    have := basicRowLoop_consistent P hWF stepQ (g.zip d) 0 d rc hd
      (by simpa using hplen)
      (fun j hj => by simpa using zip_snd_getD g d j hj)
      hrc htf
    simpa using this

unseal Rat.add Rat.mul Rat.sub Rat.inv in
/-- Concrete instantiation of every part of `C5_rc_incremental_exactness`
on the instance `P3` with dual `[1, 2]`. -/
theorem C5_rc_incremental_exactness_witness :
    P3.WF ∧
    basicTinyFree 1 (([1, -1] : List ℤ).zip ([1, 2] : List ℚ)) = true ∧
    (propagate (reducedFromScratch P3 [1, 2]) (P3.colsRow 0) 1 =
      reducedFromScratch P3
        (([1, 2] : List ℚ).set 0 (([1, 2] : List ℚ).getD 0 0 + 1))) ∧
    ((tentLoop P3 (1 / 10) ((([1, 2] : List ℚ).zip ([0, 0] : List ℚ)).zip
        ([1, -1] : List ℤ)) 0 (reducedFromScratch P3 [1, 2])).2.2.1 =
      reducedFromScratch P3
        (tentLoop P3 (1 / 10) ((([1, 2] : List ℚ).zip ([0, 0] : List ℚ)).zip
          ([1, -1] : List ℤ)) 0 (reducedFromScratch P3 [1, 2])).2.1) ∧
    ((rollbackPass P3 1 [(0, 1 / 2)]
        (([1, 2] : List ℚ), 0, reducedFromScratch P3 [1, 2])).2.2 =
      reducedFromScratch P3
        (rollbackPass P3 1 [(0, 1 / 2)]
          (([1, 2] : List ℚ), 0, reducedFromScratch P3 [1, 2])).1) ∧
    ((lineSearch P3 [(0, 1 / 2)] 1 1
        (1, 0, ([1, 2] : List ℚ), 0, reducedFromScratch P3 [1, 2]) 1).2.2.2.2 =
      reducedFromScratch P3
        (lineSearch P3 [(0, 1 / 2)] 1 1
          (1, 0, ([1, 2] : List ℚ), 0, reducedFromScratch P3 [1, 2]) 1).2.2.1) ∧
    ((spsIter P3 0 (spsInit P3 [])).rc =
      reducedFromScratch P3 (spsIter P3 0 (spsInit P3 [])).oldDual) ∧
    ((basicRowLoop P3 1 (([1, -1] : List ℤ).zip ([1, 2] : List ℚ)) 0
        (reducedFromScratch P3 [1, 2])).2.2 =
      reducedFromScratch P3
        (basicRowLoop P3 1 (([1, -1] : List ℤ).zip ([1, 2] : List ℚ)) 0
          (reducedFromScratch P3 [1, 2])).1) :=
  ⟨by decide, by decide,
    C5_rc_incremental_exactness.1 P3 (by decide) [1, 2] _ 0 (by decide)
      (by decide) rfl 1,
    C5_rc_incremental_exactness.2.1 P3 (by decide) (1 / 10) [1, 2] [0, 0]
      [1, -1] _ (by decide) (by decide) (by decide) rfl,
    C5_rc_incremental_exactness.2.2.1 P3 (by decide) 1 [(0, 1 / 2)] [1, 2] 0 _
      (by decide) (by decide) rfl,
    C5_rc_incremental_exactness.2.2.2.1 P3 (by decide) [(0, 1 / 2)] 1 1 1 0
      [1, 2] 0 _ 1 (by decide) (by decide) rfl,
    C5_rc_incremental_exactness.2.2.2.2.1 P3 (by decide) 0 (spsInit P3 [])
      (by decide) (by decide) (by decide) (by decide),
    C5_rc_incremental_exactness.2.2.2.2.2 P3 (by decide) 1 [1, -1] [1, 2] _
      (by decide) (by decide) rfl (by decide)⟩

/-! ## Claim C4: non-negativity of the dual iterates -/

theorem getD_nonneg_int {l : List ℤ} (h : ∀ x ∈ l, 0 ≤ x) (i : ℕ) :
    0 ≤ l.getD i 0 := by
  rw [List.getD_eq_getElem?_getD]
  cases hl : l[i]? with
  | none => simp
  | some v =>
    simp only [Option.getD_some]
    exact h v (List.getElem?_mem hl)

/-- With non-negative costs, every entry of the initial dual vector is
non-negative: the running minimum starts at a raw cost and only ever
moves to a (non-negative) cost share. -/
theorem init_dual_nonneg (P : SCP) (hcost : ∀ x ∈ P.cost, 0 ≤ x) :
    ∀ x ∈ (init_dual_vector P).1, 0 ≤ x := by
  intro x hx
  simp only [init_dual_vector, List.mem_map, List.mem_range] at hx
  obtain ⟨r, hr, hfold⟩ := hx
  rw [← hfold]
  rcases foldlMin_cases (ratio P) (P.colsRow r)
      ((P.cost.getD ((P.colsRow r).headD 0) 0 : ℤ) : ℚ) with h | ⟨c, hc, h⟩
  · rw [h]
    exact_mod_cast getD_nonneg_int hcost _
  · rw [h]
    unfold ratio
    apply div_nonneg
    · exact_mod_cast getD_nonneg_int hcost _
    · exact_mod_cast Nat.zero_le _

/-- The tentative momentum step only stores clipped (hence non-negative)
values over the non-negative entries of the previous dual. -/
theorem tentLoop_cur_nonneg (P : SCP) (a : ℚ) :
    ∀ (pairs : List ((ℚ × ℚ) × ℤ)) (r0 : ℕ) (rc : List ℚ),
      (∀ pr ∈ pairs, 0 ≤ pr.1.1) →
      ∀ x ∈ (tentLoop P a pairs r0 rc).2.1, 0 ≤ x
  | [], _, _, _ => by simp [tentLoop]
  | ((di, mi), gi) :: rest, r0, rc, hp => by
    have hdi : (0:ℚ) ≤ di := hp ((di, mi), gi) (List.mem_cons_self _ _)
    have ih := fun (rc' : List ℚ) => tentLoop_cur_nonneg P a rest (r0 + 1) rc'
      (fun pr hpr => hp pr (List.mem_cons_of_mem _ hpr))
    rw [tentLoop]
    by_cases hdv : (if di + (a * (gi : ℚ) + 7 / 10 * mi) < 0 then 0
        else di + (a * (gi : ℚ) + 7 / 10 * mi)) - di < -ztol ∨
        ztol < (if di + (a * (gi : ℚ) + 7 / 10 * mi) < 0 then 0
        else di + (a * (gi : ℚ) + 7 / 10 * mi)) - di
    · simp only [hdv, if_true]
      intro x hx
      rcases List.mem_cons.mp hx with rfl | hx2
      · by_cases hneg : di + (a * (gi : ℚ) + 7 / 10 * mi) < 0
        · rw [if_pos hneg]
          linarith
        · rw [if_neg hneg]
          push_neg at hneg
          linarith
      · exact ih _ x hx2
    · simp only [hdv, if_false]
      intro x hx
      rcases List.mem_cons.mp hx with rfl | hx2
      · exact hdi
      · exact ih _ x hx2

/-- Invariant tying a recorded `dd` entry to the current dual during the
line search: the dual entry of the changed row is `base + s * delta` for
some non-negative base whose fully stepped value `base + delta` is also
non-negative, with the applied fraction `s ∈ [0, 1]`; `s` is the current
`tau` unless the remaining adjustment `m * delta` is within `ZERO_TOL`
(in which case the rollback skips the row and `s` stays frozen). -/
def EntrySafe (cur : List ℚ) (pr : ℕ × ℚ) (m : ℚ) : Prop :=
  ∃ b s : ℚ, 0 ≤ b ∧ 0 ≤ b + pr.2 ∧ 0 ≤ s ∧ s ≤ 1 ∧
    cur.getD pr.1 0 = b + s * pr.2 ∧
    (s = m ∨ (-ztol ≤ m * pr.2 ∧ m * pr.2 ≤ ztol))

/-- The tentative step records strictly increasing rows in `dd`, and each
recorded entry satisfies the base/delta decomposition with the full delta
applied (relative row indices). -/
theorem tentLoop_dd_safe (P : SCP) (a : ℚ) :
    ∀ (pairs : List ((ℚ × ℚ) × ℤ)) (r0 : ℕ) (rc : List ℚ),
      (∀ pr ∈ pairs, 0 ≤ pr.1.1) →
      List.Pairwise (fun u v => u.1 < v.1) (tentLoop P a pairs r0 rc).2.2.2.1 ∧
      ∀ pr ∈ (tentLoop P a pairs r0 rc).2.2.2.1,
        ∃ b : ℚ, 0 ≤ b ∧ 0 ≤ b + pr.2 ∧
          (tentLoop P a pairs r0 rc).2.1.getD (pr.1 - r0) 0 = b + pr.2
  | [], _, _, _ => by simp [tentLoop]
  | ((di, mi), gi) :: rest, r0, rc, hp => by
    have hdi : (0:ℚ) ≤ di := hp ((di, mi), gi) (List.mem_cons_self _ _)
    have hbnd := tentLoop_dd_bounds P a rest (r0 + 1)
    have ih := fun (rc' : List ℚ) => tentLoop_dd_safe P a rest (r0 + 1) rc'
      (fun pr hpr => hp pr (List.mem_cons_of_mem _ hpr))
    rw [tentLoop]
    by_cases hdv : (if di + (a * (gi : ℚ) + 7 / 10 * mi) < 0 then 0
        else di + (a * (gi : ℚ) + 7 / 10 * mi)) - di < -ztol ∨
        ztol < (if di + (a * (gi : ℚ) + 7 / 10 * mi) < 0 then 0
        else di + (a * (gi : ℚ) + 7 / 10 * mi)) - di
    · simp only [hdv, if_true]
      obtain ⟨ihpw, ihsafe⟩ := ih (propagate rc (P.colsRow r0)
        ((if di + (a * (gi : ℚ) + 7 / 10 * mi) < 0 then 0
          else di + (a * (gi : ℚ) + 7 / 10 * mi)) - di))
      constructor
      · refine List.pairwise_cons.mpr ⟨?_, ihpw⟩
        intro pr hpr
        have := hbnd _ pr hpr
        show r0 < pr.1
        omega
      · intro pr hpr
        rcases List.mem_cons.mp hpr with rfl | h
        · refine ⟨di, hdi, ?_, ?_⟩
          · show (0:ℚ) ≤ di +
              ((if di + (a * (gi : ℚ) + 7 / 10 * mi) < 0 then 0
                else di + (a * (gi : ℚ) + 7 / 10 * mi)) - di)
            by_cases hneg : di + (a * (gi : ℚ) + 7 / 10 * mi) < 0
            · rw [if_pos hneg]
              linarith
            · rw [if_neg hneg]
              push_neg at hneg
              linarith
          · simp [Nat.sub_self]
        · obtain ⟨b, hb, hbv, hget⟩ := ihsafe pr h
          refine ⟨b, hb, hbv, ?_⟩
          have hge : r0 + 1 ≤ pr.1 := (hbnd _ pr h).1
          have hidx : pr.1 - r0 = (pr.1 - (r0 + 1)) + 1 := by omega
          rw [hidx, List.getD_cons_succ]
          exact hget
    · simp only [hdv, if_false]
      obtain ⟨ihpw, ihsafe⟩ := ih rc
      refine ⟨ihpw, ?_⟩
      intro pr hpr
      obtain ⟨b, hb, hbv, hget⟩ := ihsafe pr hpr
      have hge : r0 + 1 ≤ pr.1 := (hbnd _ pr hpr).1
      refine ⟨b, hb, hbv, ?_⟩
      have hidx : pr.1 - r0 = (pr.1 - (r0 + 1)) + 1 := by omega
      rw [hidx, List.getD_cons_succ]
      exact hget

theorem rollbackPass_length (P : SCP) (tau : ℚ) :
    ∀ (dd : List (ℕ × ℚ)) (acc : List ℚ × ℚ × List ℚ),
      (rollbackPass P tau dd acc).1.length = acc.1.length
  | [], _ => rfl
  | (r, dv) :: rest, acc => by
    rw [rollbackPass]
    by_cases hv : tau * dv < -ztol ∨ ztol < tau * dv
    · simp only [hv, if_true]
      rw [rollbackPass_length P tau rest _]
      simp
    · simp only [hv, if_false]
      exact rollbackPass_length P tau rest acc

/-- Dual entries at rows strictly below every remaining `dd` row are not
touched by the rest of a rollback pass. -/
theorem rollbackPass_getD_stable (P : SCP) (tau : ℚ) :
    ∀ (dd : List (ℕ × ℚ)) (acc : List ℚ × ℚ × List ℚ) (j : ℕ),
      (∀ pr ∈ dd, j < pr.1) →
      (rollbackPass P tau dd acc).1.getD j 0 = acc.1.getD j 0
  | [], _, _, _ => rfl
  | (r, dv) :: rest, acc, j, hj => by
    have hjr : j < r := hj (r, dv) (List.mem_cons_self _ _)
    rw [rollbackPass]
    by_cases hv : tau * dv < -ztol ∨ ztol < tau * dv
    · simp only [hv, if_true]
      rw [rollbackPass_getD_stable P tau rest _ j
        (fun pr hpr => hj pr (List.mem_cons_of_mem _ hpr))]
      exact getD_set_ne _ _ _ (by omega)
    · simp only [hv, if_false]
      exact rollbackPass_getD_stable P tau rest acc j
        (fun pr hpr => hj pr (List.mem_cons_of_mem _ hpr))

/-- One rollback pass with factor `tau`, entered with every recorded row
safe at fraction `2 * tau`, keeps the dual non-negative and leaves every
recorded row safe at fraction `tau`. -/
theorem rollbackPass_safe (P : SCP) (tau : ℚ) :
    ∀ (dd : List (ℕ × ℚ)) (cur : List ℚ) (so : ℚ) (rc : List ℚ),
      List.Pairwise (fun u v => u.1 < v.1) dd →
      (∀ pr ∈ dd, pr.1 < cur.length) →
      (∀ pr ∈ dd, EntrySafe cur pr (2 * tau)) →
      (∀ x ∈ cur, 0 ≤ x) →
      (∀ x ∈ (rollbackPass P tau dd (cur, so, rc)).1, 0 ≤ x) ∧
      (∀ pr ∈ dd, EntrySafe (rollbackPass P tau dd (cur, so, rc)).1 pr tau)
  | [], cur, so, rc, _, _, _, hnn => ⟨hnn, by simp⟩
  | (r, dv) :: rest, cur, so, rc, hpw, hbd, hsafe, hnn => by
    have hr : r < cur.length := hbd (r, dv) (List.mem_cons_self _ _)
    have hpw2 := (List.pairwise_cons.mp hpw).2
    have hlt : ∀ pr ∈ rest, r < pr.1 :=
      fun pr hpr => (List.pairwise_cons.mp hpw).1 pr hpr
    obtain ⟨b, s, hb, hbv0, hs0, hs1, hcur0, hdisj⟩ :=
      hsafe (r, dv) (List.mem_cons_self _ _)
    have hbv : (0:ℚ) ≤ b + dv := hbv0
    have hcur : cur.getD r 0 = b + s * dv := hcur0
    have hztol : (0:ℚ) < ztol := by norm_num [ztol]
    rw [rollbackPass]
    by_cases hv : tau * dv < -ztol ∨ ztol < tau * dv
    · simp only [hv, if_true]
      have hs : s = 2 * tau := by
        rcases hdisj with h | ⟨h1, h2⟩
        · exact h
        · exfalso
          have h1' : -ztol ≤ 2 * tau * dv := h1
          have h2' : 2 * tau * dv ≤ ztol := h2
          rcases hv with h | h <;> linarith
      subst hs
      have hval : cur.getD r 0 - tau * dv = b + tau * dv := by
        rw [hcur]
        ring
      have hnew : (0:ℚ) ≤ b + tau * dv := by
        nlinarith [mul_nonneg (by linarith : (0:ℚ) ≤ tau) hbv,
          mul_nonneg (by linarith : (0:ℚ) ≤ 1 - tau) hb]
      have hnn2 : ∀ x ∈ cur.set r (cur.getD r 0 - tau * dv), 0 ≤ x := by
        intro x hx
        rcases List.mem_or_eq_of_mem_set hx with h | h
        · exact hnn x h
        · rw [h, hval]
          exact hnew
      have hsafe2 : ∀ pr ∈ rest,
          EntrySafe (cur.set r (cur.getD r 0 - tau * dv)) pr (2 * tau) := by
        intro pr hpr
        obtain ⟨b2, s2, hb2, hbv2, hs02, hs12, hcur2, hdisj2⟩ :=
          hsafe pr (List.mem_cons_of_mem _ hpr)
        refine ⟨b2, s2, hb2, hbv2, hs02, hs12, ?_, hdisj2⟩
        rw [getD_set_ne _ _ _ (by have := hlt pr hpr; omega)]
        exact hcur2
      have hbd2 : ∀ pr ∈ rest,
          pr.1 < (cur.set r (cur.getD r 0 - tau * dv)).length := by
        intro pr hpr
        simpa using hbd pr (List.mem_cons_of_mem _ hpr)
      obtain ⟨ih1, ih2⟩ := rollbackPass_safe P tau rest
        (cur.set r (cur.getD r 0 - tau * dv)) (so - tau * dv)
        (propagate rc (P.colsRow r) (-(tau * dv))) hpw2 hbd2 hsafe2 hnn2
      refine ⟨ih1, ?_⟩
      intro pr hpr
      rcases List.mem_cons.mp hpr with rfl | h
      · refine ⟨b, tau, hb, hbv, by linarith, by linarith, ?_, Or.inl rfl⟩
        rw [rollbackPass_getD_stable P tau rest _ r hlt]
        show (cur.set r (cur.getD r 0 - tau * dv)).getD r 0 = b + tau * dv
        rw [getD_set_self _ _ _ _ hr, hval]
      · exact ih2 pr h
    · simp only [hv, if_false]
      push_neg at hv
      obtain ⟨ih1, ih2⟩ := rollbackPass_safe P tau rest cur so rc hpw2
        (fun pr hpr => hbd pr (List.mem_cons_of_mem _ hpr))
        (fun pr hpr => hsafe pr (List.mem_cons_of_mem _ hpr)) hnn
      refine ⟨ih1, ?_⟩
      intro pr hpr
      rcases List.mem_cons.mp hpr with rfl | h
      · refine ⟨b, s, hb, hbv, hs0, hs1, ?_, Or.inr ⟨hv.1, hv.2⟩⟩
        rw [rollbackPass_getD_stable P tau rest _ r hlt]
        exact hcur
      · exact ih2 pr h

/-- Through the whole line search the dual vector stays component-wise
non-negative: every intermediate dual entry is a convex combination
`base + s * delta` with `s ∈ [0, 1]` between two non-negative endpoint
values. -/
theorem lineSearch_safe (P : SCP) (dd : List (ℕ × ℚ)) (p : ℚ)
    (hpw : List.Pairwise (fun u v => u.1 < v.1) dd) :
    ∀ (fuel : ℕ) (tau obj : ℚ) (cur : List ℚ) (so : ℚ) (rc : List ℚ)
      (accept : ℚ),
      (∀ pr ∈ dd, pr.1 < cur.length) →
      (∀ pr ∈ dd, EntrySafe cur pr tau) →
      (∀ x ∈ cur, 0 ≤ x) →
      ∀ x ∈ (lineSearch P dd p fuel (tau, obj, cur, so, rc) accept).2.2.1, 0 ≤ x
  | 0, tau, obj, cur, so, rc, accept, _, _, hnn => hnn
  | fuel + 1, tau, obj, cur, so, rc, accept, hbd, hsafe, hnn => by
    rw [lineSearch]
    by_cases hlt : obj < accept
    · simp only [hlt, if_true]
      have hsafe2 : ∀ pr ∈ dd, EntrySafe cur pr (2 * (tau / 2)) := by
        intro pr hpr
        have h22 : 2 * (tau / 2) = tau := by ring
        rw [h22]
        exact hsafe pr hpr
      obtain ⟨h1, h2⟩ := rollbackPass_safe P (tau / 2) dd cur so rc hpw hbd
        hsafe2 hnn
      have hbd2 : ∀ pr ∈ dd,
          pr.1 < (rollbackPass P (tau / 2) dd (cur, so, rc)).1.length := by
        intro pr hpr
        rw [rollbackPass_length]
        exact hbd pr hpr
      exact lineSearch_safe P dd p hpw fuel (tau / 2) _ _ _ _ _ hbd2 h2 h1
    · simp only [hlt, if_false]
      exact hnn

/-- The basic driver's row loop stores only explicitly projected values,
each of which is non-negative by construction. -/
theorem basicRowLoop_nonneg (P : SCP) (stepQ : ℚ) :
    ∀ (pairs : List (ℤ × ℚ)) (r0 : ℕ) (rc : List ℚ),
      ∀ x ∈ (basicRowLoop P stepQ pairs r0 rc).1, 0 ≤ x
  | [], _, _ => by simp [basicRowLoop]
  | (si, di) :: rest, r0, rc => by
    have ih := fun (rc' : List ℚ) => basicRowLoop_nonneg P stepQ rest (r0 + 1) rc'
    rw [basicRowLoop]
    intro x hx
    (try dsimp only at hx)
    rcases List.mem_cons.mp hx with rfl | h
    · by_cases hneg : di + stepQ * (si : ℚ) < 0
      · rw [if_pos hneg]
      · rw [if_neg hneg]
        push_neg at hneg
        exact hneg
    · exact ih _ x h

/-- Claim C4 (confirmed): the dual vector is component-wise non-negative
after every iteration of both drivers.  (1) The initial dual is
non-negative for non-negative costs; (2) the tentative momentum step of
the SPS driver clips at zero, so the tentative dual is non-negative
whenever the previous dual is; (3) its recorded `dd` entries are strictly
increasing rows each carrying a safe base/delta decomposition; (4) every
partial rollback of the line search keeps the dual non-negative and
re-establishes the safety invariant at the halved `tau`; (5) hence the
dual is non-negative after the whole line search; (6) hence one full SPS
iteration maps a non-negative dual to a non-negative dual; (7) the basic
driver's row loop stores only explicitly projected values, so (8) every
non-breaking basic iteration produces a non-negative dual. -/
theorem C4_dual_nonneg :
    (∀ P : SCP, (∀ x ∈ P.cost, 0 ≤ x) →
      ∀ x ∈ (init_dual_vector P).1, 0 ≤ x) ∧
    (∀ (P : SCP) (a : ℚ) (pairs : List ((ℚ × ℚ) × ℤ)) (r0 : ℕ) (rc : List ℚ),
      (∀ pr ∈ pairs, 0 ≤ pr.1.1) →
      ∀ x ∈ (tentLoop P a pairs r0 rc).2.1, 0 ≤ x) ∧
    (∀ (P : SCP) (a : ℚ) (pairs : List ((ℚ × ℚ) × ℤ)) (rc : List ℚ),
      (∀ pr ∈ pairs, 0 ≤ pr.1.1) →
      List.Pairwise (fun u v => u.1 < v.1) (tentLoop P a pairs 0 rc).2.2.2.1 ∧
      ∀ pr ∈ (tentLoop P a pairs 0 rc).2.2.2.1,
        EntrySafe (tentLoop P a pairs 0 rc).2.1 pr 1) ∧
    (∀ (P : SCP) (tau : ℚ) (dd : List (ℕ × ℚ)) (cur : List ℚ) (so : ℚ)
      (rc : List ℚ),
      List.Pairwise (fun u v => u.1 < v.1) dd →
      (∀ pr ∈ dd, pr.1 < cur.length) →
      (∀ pr ∈ dd, EntrySafe cur pr (2 * tau)) →
      (∀ x ∈ cur, 0 ≤ x) →
      (∀ x ∈ (rollbackPass P tau dd (cur, so, rc)).1, 0 ≤ x) ∧
      (∀ pr ∈ dd, EntrySafe (rollbackPass P tau dd (cur, so, rc)).1 pr tau)) ∧
    (∀ (P : SCP) (dd : List (ℕ × ℚ)) (p : ℚ) (fuel : ℕ) (tau obj : ℚ)
      (cur : List ℚ) (so : ℚ) (rc : List ℚ) (accept : ℚ),
      List.Pairwise (fun u v => u.1 < v.1) dd →
      (∀ pr ∈ dd, pr.1 < cur.length) →
      (∀ pr ∈ dd, EntrySafe cur pr tau) →
      (∀ x ∈ cur, 0 ≤ x) →
      ∀ x ∈ (lineSearch P dd p fuel (tau, obj, cur, so, rc) accept).2.2.1,
        0 ≤ x) ∧
    (∀ (P : SCP) (etaK : ℚ) (st : SpsSt),
      (∀ x ∈ st.oldDual, 0 ≤ x) →
      ∀ x ∈ (spsIter P etaK st).oldDual, 0 ≤ x) ∧
    (∀ (P : SCP) (stepQ : ℚ) (pairs : List (ℤ × ℚ)) (r0 : ℕ) (rc : List ℚ),
      ∀ x ∈ (basicRowLoop P stepQ pairs r0 rc).1, 0 ≤ x) ∧
    (∀ (P : SCP) (ub : ℤ) (st : BasicSt),
      (basicIter P ub st).normNeg = false →
      ∀ x ∈ (basicIter P ub st).oldDual, 0 ≤ x) := by
  refine ⟨init_dual_nonneg, tentLoop_cur_nonneg, ?_, rollbackPass_safe, ?_,
    ?_, basicRowLoop_nonneg, ?_⟩
  · intro P a pairs rc hp
    obtain ⟨hpw, hs⟩ := tentLoop_dd_safe P a pairs 0 rc hp
    refine ⟨hpw, fun pr hpr => ?_⟩
    obtain ⟨b, hb, hbv, hget⟩ := hs pr hpr
    exact ⟨b, 1, hb, hbv, zero_le_one, le_refl 1,
      by rw [one_mul]; simpa using hget, Or.inl rfl⟩
  · intro P dd p fuel tau obj cur so rc accept hpw hbd hsafe hnn
    exact lineSearch_safe P dd p hpw fuel tau obj cur so rc accept hbd hsafe hnn
  · intro P etaK st hnn
    have hp : ∀ pr ∈ (st.oldDual.zip st.momentum).zip st.prevSubg,
        (0:ℚ) ≤ pr.1.1 := by
      intro pr hpr
      have h1 : pr.1 ∈ st.oldDual.zip st.momentum := (List.of_mem_zip hpr).1
      have h2 : pr.1.1 ∈ st.oldDual := (List.of_mem_zip h1).1
      exact hnn _ h2
    obtain ⟨hpw, hdds⟩ := tentLoop_dd_safe P st.alpha
      ((st.oldDual.zip st.momentum).zip st.prevSubg) 0 st.rc hp
    have hcnn := tentLoop_cur_nonneg P st.alpha
      ((st.oldDual.zip st.momentum).zip st.prevSubg) 0 st.rc hp
    have hsafe1 : ∀ pr ∈ (tentLoop P st.alpha
        ((st.oldDual.zip st.momentum).zip st.prevSubg) 0 st.rc).2.2.2.1,
        EntrySafe (tentLoop P st.alpha
          ((st.oldDual.zip st.momentum).zip st.prevSubg) 0 st.rc).2.1 pr 1 := by
      intro pr hpr
      obtain ⟨b, hb, hbv, hget⟩ := hdds pr hpr
      exact ⟨b, 1, hb, hbv, zero_le_one, le_refl 1,
        by rw [one_mul]; simpa using hget, Or.inl rfl⟩
    have hbd1 : ∀ pr ∈ (tentLoop P st.alpha
        ((st.oldDual.zip st.momentum).zip st.prevSubg) 0 st.rc).2.2.2.1,
        pr.1 < (tentLoop P st.alpha
          ((st.oldDual.zip st.momentum).zip st.prevSubg) 0 st.rc).2.1.length := by
      intro pr hpr
      have h1 := tentLoop_dd_bounds P st.alpha
        ((st.oldDual.zip st.momentum).zip st.prevSubg) 0 st.rc pr hpr
      have h2 := tentLoop_cur_length P st.alpha
        ((st.oldDual.zip st.momentum).zip st.prevSubg) 0 st.rc
      omega
    have hls := lineSearch_safe P (tentLoop P st.alpha
        ((st.oldDual.zip st.momentum).zip st.prevSubg) 0 st.rc).2.2.2.1
      (spsProd P st) hpw lsFuel 1 (spsTentObj P st)
      (tentLoop P st.alpha
        ((st.oldDual.zip st.momentum).zip st.prevSubg) 0 st.rc).2.1
      (tentLoop P st.alpha
        ((st.oldDual.zip st.momentum).zip st.prevSubg) 0 st.rc).2.2.2.2.2
      (tentLoop P st.alpha
        ((st.oldDual.zip st.momentum).zip st.prevSubg) 0 st.rc).2.2.1
      (spsAccept P st - etaK) hbd1 hsafe1 hcnn
    have hod : (spsIter P etaK st).oldDual =
        (lineSearch P (spsTent P st).2.2.2.1 (spsProd P st) lsFuel
          (1, spsTentObj P st, (spsTent P st).2.1, (spsTent P st).2.2.2.2.2,
            (spsTent P st).2.2.1) (spsAccept P st - etaK)).2.2.1 :=
      (spsPost_fields P st _).2
    rw [hod]
    exact hls
  · intro P ub st h
    by_cases hsg : (compute_subg_vector_basic P st.rc st.oldDual).2 < 0
    · exfalso
      have hT : (basicIter P ub st).normNeg = true := by
        simp [basicIter, hsg]
      simp [hT] at h
    · have hod : (basicIter P ub st).oldDual =
          (basicRowLoop P (st.lam * ((21 / 20 : ℚ) * (ub : ℚ) - st.currObj) /
            ((compute_subg_vector_basic P st.rc st.oldDual).2 : ℚ))
            ((compute_subg_vector_basic P st.rc st.oldDual).1.zip st.oldDual)
            0 st.rc).1 := by
        simp only [basicIter, if_neg hsg]
        split
        · simp [BasicSt.oldDual]
        · split <;> simp [BasicSt.oldDual]
      rw [hod]
      exact basicRowLoop_nonneg P _ _ _ _

unseal Rat.add Rat.mul Rat.sub Rat.inv in
/-- Concrete instantiation of every part of `C4_dual_nonneg` on the
instance `P3` with dual `[1, 2]`. -/
theorem C4_dual_nonneg_witness :
    (∀ x ∈ (init_dual_vector P3).1, 0 ≤ x) ∧
    (∀ x ∈ (tentLoop P3 (1 / 10) ((([1, 2] : List ℚ).zip ([0, 0] : List ℚ)).zip
        ([1, -1] : List ℤ)) 0 (reducedFromScratch P3 [1, 2])).2.1, 0 ≤ x) ∧
    (List.Pairwise (fun u v => u.1 < v.1)
      (tentLoop P3 (1 / 10) ((([1, 2] : List ℚ).zip ([0, 0] : List ℚ)).zip
        ([1, -1] : List ℤ)) 0 (reducedFromScratch P3 [1, 2])).2.2.2.1 ∧
     ∀ pr ∈ (tentLoop P3 (1 / 10) ((([1, 2] : List ℚ).zip
        ([0, 0] : List ℚ)).zip ([1, -1] : List ℤ)) 0
        (reducedFromScratch P3 [1, 2])).2.2.2.1,
       EntrySafe (tentLoop P3 (1 / 10) ((([1, 2] : List ℚ).zip
        ([0, 0] : List ℚ)).zip ([1, -1] : List ℤ)) 0
        (reducedFromScratch P3 [1, 2])).2.1 pr 1) ∧
    ((∀ x ∈ (rollbackPass P3 (1 / 2) [(0, 1 / 2)]
        (([1, 2] : List ℚ), 0, [])).1, 0 ≤ x) ∧
     ∀ pr ∈ ([(0, 1 / 2)] : List (ℕ × ℚ)),
       EntrySafe (rollbackPass P3 (1 / 2) [(0, 1 / 2)]
         (([1, 2] : List ℚ), 0, [])).1 pr (1 / 2)) ∧
    (∀ x ∈ (lineSearch P3 [(0, 1 / 2)] 1 1
        (1, 0, ([1, 2] : List ℚ), 0, []) 1).2.2.1, 0 ≤ x) ∧
    (∀ x ∈ (spsIter P3 0 (spsInit P3 [])).oldDual, 0 ≤ x) ∧
    (∀ x ∈ (basicRowLoop P3 1 (([1, -1] : List ℤ).zip ([1, 2] : List ℚ)) 0
        (reducedFromScratch P3 [1, 2])).1, 0 ≤ x) ∧
    (∀ x ∈ (basicIter P3 1
        ⟨[1, 2], [], false, reducedFromScratch P3 [1, 2], 0, 0, 2, 0,
          false⟩).oldDual, 0 ≤ x) :=
  ⟨C4_dual_nonneg.1 P3 (by decide),
   C4_dual_nonneg.2.1 P3 (1 / 10) _ 0 _ (by decide),
   C4_dual_nonneg.2.2.1 P3 (1 / 10) _ _ (by decide),
   C4_dual_nonneg.2.2.2.1 P3 (1 / 2) [(0, 1 / 2)] [1, 2] 0 []
     (by simp)
     (by decide)
     (by
       intro pr hpr
       rw [List.mem_singleton] at hpr
       subst hpr
       exact ⟨1 / 2, 1, by norm_num, by norm_num, by norm_num, le_refl 1,
         by decide, Or.inl (by norm_num)⟩)
     (by decide),
   C4_dual_nonneg.2.2.2.2.1 P3 [(0, 1 / 2)] 1 1 1 0 [1, 2] 0 [] 1
     (by simp)
     (by decide)
     (by
       intro pr hpr
       rw [List.mem_singleton] at hpr
       subst hpr
       exact ⟨1 / 2, 1, by norm_num, by norm_num, by norm_num, le_refl 1,
         by decide, Or.inl rfl⟩)
     (by decide),
   C4_dual_nonneg.2.2.2.2.2.1 P3 0 (spsInit P3 []) (by decide),
   C4_dual_nonneg.2.2.2.2.2.2.1 P3 1 _ 0 _,
   C4_dual_nonneg.2.2.2.2.2.2.2 P3 1
     ⟨[1, 2], [], false, reducedFromScratch P3 [1, 2], 0, 0, 2, 0, false⟩
     (by decide)⟩

/-! ## Claim C7: the sliding window of recent objective values -/

/-- The sequence of accepted objective values including the seeded initial
objective: index 0 is the seed, index `n + 1` is the objective accepted at
iteration `n`. -/
def seqVal (s : ℚ) (objs : ℕ → ℚ) : ℕ → ℚ
  | 0 => s
  | n + 1 => objs n

/-- The window of the most recent objective values before iteration `k`:
the last ten of seed, objs 0, …, objs (k-1) (all of them while fewer than
ten exist). -/
def wlist (s : ℚ) (objs : ℕ → ℚ) (k : ℕ) : List ℚ :=
  (List.range' (k - 9) (k + 1 - (k - 9))).map (seqVal s objs)

/-- Invariant of the ring buffer before iteration `k`: the buffer has the
ten slots; slot `n % 10` holds value `n` of the sequence for every window
index `n ∈ [k-9, k]`; slots hit by no window index are unwritten;
`worst`/`wIdx` name a window value that bounds the whole window from
below. -/
def winInv (s : ℚ) (objs : ℕ → ℚ) (k : ℕ) (buf : List (Option ℚ))
    (worst : ℚ) (wIdx : ℕ) : Prop :=
  buf.length = 10 ∧
  (∀ n, k - 9 ≤ n → n ≤ k → buf.getD (n % 10) none = some (seqVal s objs n)) ∧
  (∀ i < 10, (∀ n, k - 9 ≤ n → n ≤ k → n % 10 ≠ i) →
    buf.getD i none = none) ∧
  (∃ n, k - 9 ≤ n ∧ n ≤ k ∧ n % 10 = wIdx ∧ seqVal s objs n = worst) ∧
  (∀ n, k - 9 ≤ n → n ≤ k → worst ≤ seqVal s objs n)

/-- Full characterisation of the rescan loop over slots that are all
written: the stuck flag is untouched, the result is the minimum of the
running value and all scanned slots, and the returned index points at a
slot holding the returned value (unless it is the untouched running
pair). -/
theorem rescanLoop_spec (buf : List (Option ℚ)) :
    ∀ (js : List ℕ) (w : ℚ) (wi : ℕ) (stk : Bool),
      (∀ j ∈ js, buf.getD j none ≠ none) →
      (rescanLoop buf js (w, wi, stk)).2.2 = stk ∧
      ((rescanLoop buf js (w, wi, stk)).1 = w ∧
        (rescanLoop buf js (w, wi, stk)).2.1 = wi ∨
       ∃ j ∈ js, buf.getD j none = some (rescanLoop buf js (w, wi, stk)).1 ∧
         (rescanLoop buf js (w, wi, stk)).2.1 = j) ∧
      (rescanLoop buf js (w, wi, stk)).1 ≤ w ∧
      (∀ j ∈ js, ∀ u, buf.getD j none = some u →
        (rescanLoop buf js (w, wi, stk)).1 ≤ u)
  | [], w, wi, stk, _ => ⟨rfl, Or.inl ⟨rfl, rfl⟩, le_refl _, by simp⟩
  | j :: rest, w, wi, stk, hall => by
    have hjw := hall j (List.mem_cons_self _ _)
    rw [rescanLoop]
    cases hbj : buf.getD j none with
    | none => exact absurd hbj hjw
    | some u =>
      by_cases huw : u < w
      · simp only [huw, if_true]
        obtain ⟨ih1, ih2, ih3, ih4⟩ := rescanLoop_spec buf rest u j stk
          (fun j' hj' => hall j' (List.mem_cons_of_mem _ hj'))
        refine ⟨ih1, ?_, le_trans ih3 (le_of_lt huw), ?_⟩
        · rcases ih2 with ⟨h1, h2⟩ | ⟨j', hj', hv', hi'⟩
          · refine Or.inr ⟨j, List.mem_cons_self _ _, ?_, h2⟩
            rw [h1]
            exact hbj
          · exact Or.inr ⟨j', List.mem_cons_of_mem _ hj', hv', hi'⟩
        · intro j' hj' u' hu'
          rcases List.mem_cons.mp hj' with rfl | hj'
          · have heq : u' = u := by
              rw [hu'] at hbj
              exact Option.some_inj.mp hbj
            rw [heq]
            exact ih3
          · exact ih4 j' hj' u' hu'
      · simp only [huw, if_false]
        obtain ⟨ih1, ih2, ih3, ih4⟩ := rescanLoop_spec buf rest w wi stk
          (fun j' hj' => hall j' (List.mem_cons_of_mem _ hj'))
        push_neg at huw
        refine ⟨ih1, ?_, ih3, ?_⟩
        · rcases ih2 with ⟨h1, h2⟩ | ⟨j', hj', hv', hi'⟩
          · exact Or.inl ⟨h1, h2⟩
          · exact Or.inr ⟨j', List.mem_cons_of_mem _ hj', hv', hi'⟩
        · intro j' hj' u' hu'
          rcases List.mem_cons.mp hj' with rfl | hj'
          · have heq : u' = u := by
              rw [hu'] at hbj
              exact Option.some_inj.mp hbj
            rw [heq]
            exact le_trans ih3 huw
          · exact ih4 j' hj' u' hu'

/-- One window update preserves the invariant (advancing the window by
one) and its rescan never reads an unwritten slot. -/
theorem windowStep_inv (s : ℚ) (objs : ℕ → ℚ) (k : ℕ)
    (buf : List (Option ℚ)) (worst : ℚ) (wIdx : ℕ)
    (h : winInv s objs k buf worst wIdx) :
    winInv s objs (k + 1) (windowStep buf worst wIdx k (objs k)).1
      (windowStep buf worst wIdx k (objs k)).2.1
      (windowStep buf worst wIdx k (objs k)).2.2.1 ∧
    (windowStep buf worst wIdx k (objs k)).2.2.2 = false := by
  obtain ⟨hlen, hw, hu, ⟨n0, hn0a, hn0b, hn0c, hn0d⟩, hmin⟩ := h
  have hilt : (k + 1) % 10 < 10 := Nat.mod_lt _ (by norm_num)
  have hbuf2len : (buf.set ((k + 1) % 10) (some (objs k))).length = 10 := by
    simpa using hlen
  have hw2 : ∀ n, k + 1 - 9 ≤ n → n ≤ k + 1 →
      (buf.set ((k + 1) % 10) (some (objs k))).getD (n % 10) none =
        some (seqVal s objs n) := by
    intro n h1 h2
    by_cases hn : n = k + 1
    · subst hn
      rw [getD_set_self _ _ _ _ (by rw [hlen]; exact hilt)]
      rfl
    · have hne : n % 10 ≠ (k + 1) % 10 := by omega
      rw [getD_set_ne _ _ _ (fun hh => hne hh.symm)]
      exact hw n (by omega) (by omega)
  have hu2 : ∀ j < 10, (∀ n, k + 1 - 9 ≤ n → n ≤ k + 1 → n % 10 ≠ j) →
      (buf.set ((k + 1) % 10) (some (objs k))).getD j none = none := by
    intro j hj hnone
    have hji : (k + 1) % 10 ≠ j := hnone (k + 1) (by omega) (by omega)
    rw [getD_set_ne _ _ _ hji]
    refine hu j hj ?_
    intro n hn1 hn2
    by_cases hge : k + 1 - 9 ≤ n
    · exact hnone n hge (by omega)
    · have hmod : n % 10 = (k + 1) % 10 := by omega
      rw [hmod]
      exact hji
  simp only [windowStep]
  by_cases hiw : (k + 1) % 10 = wIdx
  · have hk9 : 9 ≤ k := by omega
    rw [if_pos hiw]
    by_cases hvw : objs k ≤ worst
    · rw [if_pos hvw]
      refine ⟨⟨hbuf2len, hw2, hu2,
        ⟨k + 1, by omega, le_refl _, hiw, rfl⟩, ?_⟩, rfl⟩
      intro n h1 h2
      by_cases hn : n = k + 1
      · subst hn
        exact le_refl _
      · exact le_trans hvw (hmin n (by omega) (by omega))
    · rw [if_neg hvw]
      have h10mem : ∀ m ∈ [9, 8, 7, 6, 5, 4, 3, 2, 1, 0], m < 10 := by decide
      have hmem10 : ∀ m < 10, m ∈ [9, 8, 7, 6, 5, 4, 3, 2, 1, 0] := by decide
      have hall : ∀ j ∈ [9, 8, 7, 6, 5, 4, 3, 2, 1, 0],
          (buf.set ((k + 1) % 10) (some (objs k))).getD j none ≠ none := by
        intro j hj
        have hj10 : j < 10 := h10mem j hj
        obtain ⟨n, hna, hnb, hnc⟩ : ∃ n, k + 1 - 9 ≤ n ∧ n ≤ k + 1 ∧
            n % 10 = j := ⟨k + 1 - ((k + 11 - j) % 10), by omega, by omega,
              by omega⟩
        rw [← hnc, hw2 n hna hnb]
        simp
      obtain ⟨hstk, hcases, hlew, hleall⟩ := rescanLoop_spec
        (buf.set ((k + 1) % 10) (some (objs k)))
        [9, 8, 7, 6, 5, 4, 3, 2, 1, 0] (objs k) wIdx false hall
      refine ⟨⟨hbuf2len, hw2, hu2, ?_, ?_⟩, hstk⟩
      · rcases hcases with ⟨hv1, hv2⟩ | ⟨j, hjmem, hjval, hjidx⟩
        · refine ⟨k + 1, by omega, le_refl _, ?_, ?_⟩
          · rw [hv2]
            exact hiw
          · rw [hv1]
            rfl
        · have hj10 : j < 10 := h10mem j hjmem
          obtain ⟨n, hna, hnb, hnc⟩ : ∃ n, k + 1 - 9 ≤ n ∧ n ≤ k + 1 ∧
              n % 10 = j := ⟨k + 1 - ((k + 11 - j) % 10), by omega, by omega,
                by omega⟩
          refine ⟨n, hna, hnb, by rw [hnc, hjidx], ?_⟩
          have hval := hw2 n hna hnb
          rw [hnc, hjval] at hval
          exact (Option.some_inj.mp hval).symm
      · intro n h1 h2
        have hjmem : n % 10 ∈ [9, 8, 7, 6, 5, 4, 3, 2, 1, 0] :=
          hmem10 (n % 10) (Nat.mod_lt _ (by norm_num))
        exact hleall (n % 10) hjmem (seqVal s objs n) (hw2 n h1 h2)
  · rw [if_neg hiw]
    have hn0new : k + 1 - 9 ≤ n0 := by omega
    by_cases hvw : objs k < worst
    · rw [if_pos hvw]
      refine ⟨⟨hbuf2len, hw2, hu2,
        ⟨k + 1, by omega, le_refl _, rfl, rfl⟩, ?_⟩, rfl⟩
      intro n h1 h2
      by_cases hn : n = k + 1
      · subst hn
        exact le_refl _
      · exact le_trans (le_of_lt hvw) (hmin n (by omega) (by omega))
    · rw [if_neg hvw]
      push_neg at hvw
      refine ⟨⟨hbuf2len, hw2, hu2,
        ⟨n0, hn0new, by omega, hn0c, hn0d⟩, ?_⟩, rfl⟩
      intro n h1 h2
      by_cases hn : n = k + 1
      · subst hn
        exact hvw
      · exact hmin n (by omega) (by omega)

/-- The invariant only reads the objective sequence below `k`. -/
theorem winInv_congr (s : ℚ) (objs objs' : ℕ → ℚ) (k : ℕ)
    (buf : List (Option ℚ)) (worst : ℚ) (wIdx : ℕ)
    (h : winInv s objs k buf worst wIdx)
    (hagree : ∀ n < k, objs' n = objs n) :
    winInv s objs' k buf worst wIdx := by
  have hs : ∀ n ≤ k, seqVal s objs' n = seqVal s objs n := by
    intro n hn
    cases n with
    | zero => rfl
    | succ m => exact hagree m (by omega)
  obtain ⟨h1, h2, h3, ⟨n0, a, b, c, d⟩, h5⟩ := h
  exact ⟨h1, fun n hn1 hn2 => by rw [hs n hn2]; exact h2 n hn1 hn2, h3,
    ⟨n0, a, b, c, by rw [hs n0 b]; exact d⟩,
    fun n hn1 hn2 => by rw [hs n hn2]; exact h5 n hn1 hn2⟩

/-- Field bookkeeping of the post-step: either the iteration ends by
optimality (window untouched, stuck flag untouched), or the window
components are exactly one `windowStep` update with the accepted
objective. -/
theorem spsPost_window (P : SCP) (st : SpsSt)
    (l : ℚ × ℚ × List ℚ × ℚ × List ℚ) :
    ((compute_subg_vector_sps P l.2.2.2.2).2 = true ∧
      (spsPost P st l).isOpt = true ∧ (spsPost P st l).stuck = st.stuck ∧
      (spsPost P st l).itr = st.itr + 1) ∨
    ((compute_subg_vector_sps P l.2.2.2.2).2 = false ∧
      (spsPost P st l).isOpt = false ∧
      (spsPost P st l).buf =
        (windowStep st.buf st.worst st.worstIdx st.itr l.2.1).1 ∧
      (spsPost P st l).worst =
        (windowStep st.buf st.worst st.worstIdx st.itr l.2.1).2.1 ∧
      (spsPost P st l).worstIdx =
        (windowStep st.buf st.worst st.worstIdx st.itr l.2.1).2.2.1 ∧
      (spsPost P st l).stuck = (st.stuck ||
        (windowStep st.buf st.worst st.worstIdx st.itr l.2.1).2.2.2) ∧
      (spsPost P st l).itr = st.itr + 1) := by
  by_cases hsg : (compute_subg_vector_sps P l.2.2.2.2).2 = true
  · left
    refine ⟨hsg, ?_, ?_, ?_⟩ <;>
      by_cases himp : st.bestObj < l.2.1 <;> simp [spsPost, hsg, himp]
  · right
    rw [Bool.not_eq_true] at hsg
    refine ⟨hsg, ?_, ?_, ?_, ?_, ?_, ?_⟩ <;>
      by_cases himp : st.bestObj < l.2.1 <;> simp [spsPost, hsg, himp]

/-- Reachability invariant of the window machinery inside the SPS driver:
the stuck flag is clear and (unless the state is a terminal optimal one)
the window fields satisfy `winInv` for some seed and objective history. -/
def winReach (st : SpsSt) : Prop :=
  st.stuck = false ∧ (st.isOpt = true ∨
    ∃ s objs, winInv s objs st.itr st.buf st.worst st.worstIdx)

theorem spsIter_winReach (P : SCP) (etaK : ℚ) (st : SpsSt)
    (h : winReach st) (hnotopt : st.isOpt = false) :
    winReach (spsIter P etaK st) := by
  obtain ⟨hstk, hdis⟩ := h
  rcases hdis with hopt | ⟨s, objs, hinv⟩
  · rw [hopt] at hnotopt
    cases hnotopt
  · have e : spsIter P etaK st = spsPost P st
        (lineSearch P (spsTent P st).2.2.2.1 (spsProd P st) lsFuel
          (1, spsTentObj P st, (spsTent P st).2.1, (spsTent P st).2.2.2.2.2,
            (spsTent P st).2.2.1) (spsAccept P st - etaK)) := rfl
    rw [e]
    set L := lineSearch P (spsTent P st).2.2.2.1 (spsProd P st) lsFuel
      (1, spsTentObj P st, (spsTent P st).2.1, (spsTent P st).2.2.2.2.2,
        (spsTent P st).2.2.1) (spsAccept P st - etaK) with hLdef
    rcases spsPost_window P st L with
      ⟨_, hopt2, hs2, _⟩ | ⟨hsg, hopt2, hbuf, hworst, hwidx, hstuck, hitr⟩
    · exact ⟨by rw [hs2]; exact hstk, Or.inl hopt2⟩
    · set objs2 : ℕ → ℚ := fun n => if n = st.itr then L.2.1 else objs n
        with hobjs2
      have hinv' := winInv_congr s objs objs2 st.itr st.buf st.worst
        st.worstIdx hinv (fun n hn => by simp [hobjs2, Nat.ne_of_lt hn])
      have hval : objs2 st.itr = L.2.1 := by simp [hobjs2]
      have hstep := windowStep_inv s objs2 st.itr st.buf st.worst
        st.worstIdx hinv'
      rw [hval] at hstep
      refine ⟨?_, Or.inr ⟨s, objs2, ?_⟩⟩
      · rw [hstuck, hstk, hstep.2]
        rfl
      · rw [hitr, hbuf, hworst, hwidx]
        exact hstep.1

theorem replicate_getD_none (m : ℕ) (i : ℕ) :
    (List.replicate m (none : Option ℚ)).getD i none = none := by
  rw [List.getD_eq_getElem?_getD, List.getElem?_replicate]
  split <;> rfl

/-- The seeded window (initial objective in slot 0, slots 1–9 unwritten)
satisfies the invariant at iteration 0. -/
theorem winInv_seed (s : ℚ) (objs : ℕ → ℚ) :
    winInv s objs 0 (some s :: List.replicate 9 none) s 0 := by
  refine ⟨rfl, ?_, ?_, ⟨0, by omega, le_refl 0, rfl, rfl⟩, ?_⟩
  · intro n h1 h2
    have hn : n = 0 := by omega
    subst hn
    rfl
  · intro i hi hnone
    have hne := hnone 0 (by omega) (le_refl 0)
    obtain ⟨m, rfl⟩ : ∃ m, i = m + 1 := ⟨i - 1, by omega⟩
    rw [List.getD_cons_succ]
    exact replicate_getD_none 9 m
  · intro n h1 h2
    have hn : n = 0 := by omega
    subst hn
    exact le_refl s

/-- In a full run of the SPS loop from its initial state the rescan never
reads an unwritten slot: the stuck flag of the final state is clear. -/
theorem spsGo_stuck_false (P : SCP) (eta : ℕ → ℚ) :
    ∀ (f : ℕ) (st : SpsSt), winReach st → (spsGo P eta f st).stuck = false
  | 0, st, h => h.1
  | f + 1, st, h => by
    by_cases hopt : st.isOpt = true
    · rw [spsGo_opt P eta (f + 1) st hopt]
      exact h.1
    · rw [Bool.not_eq_true] at hopt
      rw [spsGo_step P eta f st hopt]
      exact spsGo_stuck_false P eta f _ (spsIter_winReach P (eta st.itr) st h hopt)

/-- Claim C7 (confirmed): at the start of every iteration of the SPS
driver `worst_obj` is the minimum of the window of the most recent
accepted objective values (all values so far, including the seeded
initial objective, while fewer than ten exist), and the ring-buffer
update rescans only through written slots.  (1) The initial state seeds
the invariant `winInv`; (2) every `windowStep` update preserves it for
the window advanced by one and returns a clear stuck flag — in
particular the rescan, which only happens when the overwritten slot held
the previous minimum, reads no unwritten slot; (3) the invariant says
exactly that `worst` is a member of, and a lower bound of, the window
`wlist`; (4) a non-terminal SPS iteration updates the window fields by
exactly one `windowStep` with the accepted objective; (5) consequently a
whole driver run from the initial state never reads an unwritten slot. -/
theorem C7_worst_window :
    (∀ (P : SCP) (junk : List ℚ) (objs : ℕ → ℚ),
      winInv (init_dual_vector P).2.2 objs 0 (spsInit P junk).buf
        (spsInit P junk).worst (spsInit P junk).worstIdx ∧
      (spsInit P junk).stuck = false ∧ (spsInit P junk).itr = 0) ∧
    (∀ (s : ℚ) (objs : ℕ → ℚ) (k : ℕ) (buf : List (Option ℚ)) (worst : ℚ)
      (wIdx : ℕ), winInv s objs k buf worst wIdx →
      winInv s objs (k + 1) (windowStep buf worst wIdx k (objs k)).1
        (windowStep buf worst wIdx k (objs k)).2.1
        (windowStep buf worst wIdx k (objs k)).2.2.1 ∧
      (windowStep buf worst wIdx k (objs k)).2.2.2 = false) ∧
    (∀ (s : ℚ) (objs : ℕ → ℚ) (k : ℕ) (buf : List (Option ℚ)) (worst : ℚ)
      (wIdx : ℕ), winInv s objs k buf worst wIdx →
      worst ∈ wlist s objs k ∧ ∀ v ∈ wlist s objs k, worst ≤ v) ∧
    (∀ (P : SCP) (st : SpsSt) (l : ℚ × ℚ × List ℚ × ℚ × List ℚ),
      ((compute_subg_vector_sps P l.2.2.2.2).2 = true ∧
        (spsPost P st l).isOpt = true ∧ (spsPost P st l).stuck = st.stuck ∧
        (spsPost P st l).itr = st.itr + 1) ∨
      ((compute_subg_vector_sps P l.2.2.2.2).2 = false ∧
        (spsPost P st l).isOpt = false ∧
        (spsPost P st l).buf =
          (windowStep st.buf st.worst st.worstIdx st.itr l.2.1).1 ∧
        (spsPost P st l).worst =
          (windowStep st.buf st.worst st.worstIdx st.itr l.2.1).2.1 ∧
        (spsPost P st l).worstIdx =
          (windowStep st.buf st.worst st.worstIdx st.itr l.2.1).2.2.1 ∧
        (spsPost P st l).stuck = (st.stuck ||
          (windowStep st.buf st.worst st.worstIdx st.itr l.2.1).2.2.2) ∧
        (spsPost P st l).itr = st.itr + 1)) ∧
    (∀ (P : SCP) (eta : ℕ → ℚ) (maxItr : ℕ) (junk : List ℚ),
      (spsGo P eta maxItr (spsInit P junk)).stuck = false) := by
  refine ⟨?_, windowStep_inv, ?_, spsPost_window, ?_⟩
  · intro P junk objs
    exact ⟨winInv_seed _ objs, rfl, rfl⟩
  · intro s objs k buf worst wIdx h
    obtain ⟨_, _, _, ⟨n0, a, b, c, d⟩, hmin⟩ := h
    constructor
    · rw [← d]
      exact List.mem_map_of_mem _ (List.mem_range'_1.mpr ⟨a, by omega⟩)
    · intro v hv
      obtain ⟨n, hn, rfl⟩ := List.mem_map.mp hv
      rw [List.mem_range'_1] at hn
      exact hmin n hn.1 (by omega)
  · intro P eta maxItr junk
    exact spsGo_stuck_false P eta maxItr (spsInit P junk)
      ⟨rfl, Or.inr ⟨(init_dual_vector P).2.2, fun _ => 0,
        winInv_seed _ _⟩⟩

/-- Concrete instantiation of the hypothesis-bearing parts of
`C7_worst_window`: one update on the seeded window of `P3`, the
minimum-extraction on the seeded window, and a five-iteration run. -/
theorem C7_worst_window_witness :
    (winInv (init_dual_vector P3).2.2 (fun _ => 7) 1
      (windowStep (spsInit P3 []).buf (spsInit P3 []).worst
        (spsInit P3 []).worstIdx 0 7).1
      (windowStep (spsInit P3 []).buf (spsInit P3 []).worst
        (spsInit P3 []).worstIdx 0 7).2.1
      (windowStep (spsInit P3 []).buf (spsInit P3 []).worst
        (spsInit P3 []).worstIdx 0 7).2.2.1 ∧
     (windowStep (spsInit P3 []).buf (spsInit P3 []).worst
        (spsInit P3 []).worstIdx 0 7).2.2.2 = false) ∧
    ((spsInit P3 []).worst ∈ wlist (init_dual_vector P3).2.2 (fun _ => 7) 0 ∧
     ∀ v ∈ wlist (init_dual_vector P3).2.2 (fun _ => 7) 0,
       (spsInit P3 []).worst ≤ v) ∧
    (spsGo P3 (fun _ => 0) 5 (spsInit P3 [])).stuck = false :=
  ⟨C7_worst_window.2.1 (init_dual_vector P3).2.2 (fun _ => 7) 0
      (spsInit P3 []).buf (spsInit P3 []).worst (spsInit P3 []).worstIdx
      (C7_worst_window.1 P3 [] (fun _ => 7)).1,
   C7_worst_window.2.2.1 (init_dual_vector P3).2.2 (fun _ => 7) 0
      (spsInit P3 []).buf (spsInit P3 []).worst (spsInit P3 []).worstIdx
      (C7_worst_window.1 P3 [] (fun _ => 7)).1,
   C7_worst_window.2.2.2.2 P3 (fun _ => 0) 5 []⟩

end SCPModel
